import Mathlib

/-!
Verification of the streaming transport-and-parser pipeline of the Go SDK
(`parser` package, `internal/transport/subprocess.go`, `internal/client/stream.go`).

The Go code is shallowly embedded: byte buffers become `List Char` (every byte the
scanner inspects is ASCII, so multi-byte UTF-8 code units can never compare equal to
a brace, quote or backslash and the identification of bytes with characters is
faithful); `map[string]any` values produced by `encoding/json` become the `JValue`
tree with association lists for objects (last key wins, as for Go maps built by
`Unmarshal`); wire-format decimal numbers are kept exact as `mantissa / 10 ^ scale`
(Go decodes them to `float64`; the binary rounding of that step is abstracted
away); fallible Go
functions returning `(T, error)` become `Except String T`; Go code that can panic
or loop forever is modelled with `Option`, `none` marking the panic/divergence.
-/

namespace ClaudeSDK

/-- A wire-format decimal number, kept exact: the value `mantissa / 10 ^ scale`.
In Go this arrives as the nearest `float64`. -/
structure JNum where
  mantissa : Int
  scale : Nat
deriving DecidableEq, Repr

/-- Go\x27s `int(val)` conversion of the number: truncation toward zero (the
fractional part is discarded, not rounded). -/
def JNum.trunc (n : JNum) : Int :=
  if 0 ≤ n.mantissa then Int.ofNat (n.mantissa.toNat / 10 ^ n.scale)
  else -Int.ofNat ((-n.mantissa).toNat / 10 ^ n.scale)

/-- A decoded JSON value, as produced by `encoding/json.Unmarshal` into `any`:
`nil`, `bool`, `float64` (here an exact decimal), `string`, `[]any`, and
`map[string]any` (here an association list; lookups take the last binding,
matching the map semantics of `Unmarshal` on duplicate keys). -/
inductive JValue where
  | null : JValue
  | bool (b : Bool) : JValue
  | num (q : JNum) : JValue
  | str (s : String) : JValue
  | arr (items : List JValue) : JValue
  | obj (fields : List (String × JValue)) : JValue

/-- Content block variants (`types` package): `TextBlock`, `ToolUseBlock`,
`ToolResultBlock`. -/
inductive ContentBlock where
  | text (text : String) : ContentBlock
  | toolUse (id name : String) (input : List (String × JValue)) : ContentBlock
  | toolResult (toolUseId : String) (content : Option String) (isError : Option Bool) : ContentBlock

/-- Message variants (`types` package): `UserMessage`, `AssistantMessage`,
`SystemMessage`, `ResultMessage` with exactly the fields of the Go structs. -/
inductive Message where
  | user (content : String) : Message
  | assistant (content : List ContentBlock) : Message
  | system (subtype : String) (data : List (String × JValue)) : Message
  | result (subtype : String) (durationMs durationApiMs : Int) (isError : Bool)
      (numTurns : Int) (sessionId : String) (totalCostUsd : Option JNum)
      (usage : Option (List (String × JValue))) (result : Option String) : Message

/-- Lookup in a decoded JSON object, i.e. `raw[key]` on the Go map built by
`Unmarshal`: the last binding of a duplicated key wins. -/
def getField (fields : List (String × JValue)) (key : String) : Option JValue :=
  (fields.reverse.find? (fun kv => kv.1 == key)).map (fun kv => kv.2)

/-- Model of `parseUserMessage` (parser, lines 257-274): requires `message` to be an object;
`content` may be a string, or an array summarised as "Tool results: N items";
otherwise an error naming the field. -/
def parseUserMessage (raw : List (String × JValue)) : Except String Message :=
  match getField raw "message" with
  | some (JValue.obj message) =>
    match getField message "content" with
    | some (JValue.str contentStr) => Except.ok (Message.user contentStr)
    | some (JValue.arr contentArray) =>
      Except.ok (Message.user ("Tool results: " ++ toString contentArray.length ++ " items"))
    | _ => Except.error "user message missing \x27content\x27 field"
  | _ => Except.error "user message missing \x27message\x27 field"

/-- Model of `parseContentBlock` (parser, lines 309-364). Returns `none` for unknown block
types (silently skipped for forward compatibility). -/
def parseContentBlock (block : List (String × JValue)) : Except String (Option ContentBlock) :=
  match getField block "type" with
  | some (JValue.str blockType) =>
    if blockType = "text" then
      match getField block "text" with
      | some (JValue.str text) => Except.ok (some (ContentBlock.text text))
      | _ => Except.error "text block missing \x27text\x27 field"
    else if blockType = "tool_use" then
      match getField block "id" with
      | some (JValue.str id) =>
        match getField block "name" with
        | some (JValue.str name) =>
          match getField block "input" with
          | some (JValue.obj input) => Except.ok (some (ContentBlock.toolUse id name input))
          | _ => Except.error "tool_use block missing \x27input\x27 field"
        | _ => Except.error "tool_use block missing \x27name\x27 field"
      | _ => Except.error "tool_use block missing \x27id\x27 field"
    else if blockType = "tool_result" then
      match getField block "tool_use_id" with
      | some (JValue.str toolUseId) =>
        let content : Option String :=
          match getField block "content" with
          | some (JValue.str s) => some s
          | _ => none
        let isError : Option Bool :=
          match getField block "is_error" with
          | some (JValue.bool b) => some b
          | _ => none
        Except.ok (some (ContentBlock.toolResult toolUseId content isError))
      | _ => Except.error "tool_result block missing \x27tool_use_id\x27 field"
    else
      Except.ok none
  | _ => Except.error "content block missing \x27type\x27 field"

/-- The loop body of `parseAssistantMessage`: non-object entries of the content
array are skipped (`continue`), block errors abort, `nil` blocks are dropped. -/
def parseBlocks (items : List JValue) : Except String (List ContentBlock) :=
  match items with
  | [] => Except.ok []
  | JValue.obj block :: rest =>
    match parseContentBlock block with
    | Except.error e => Except.error ("failed to parse content block: " ++ e)
    | Except.ok none => parseBlocks rest
    | Except.ok (some cb) =>
      match parseBlocks rest with
      | Except.error e => Except.error e
      | Except.ok cbs => Except.ok (cb :: cbs)
  | _ :: rest => parseBlocks rest

/-- Model of `parseAssistantMessage` (parser, lines 277-306). -/
def parseAssistantMessage (raw : List (String × JValue)) : Except String Message :=
  match getField raw "message" with
  | some (JValue.obj message) =>
    match getField message "content" with
    | some (JValue.arr contentArray) =>
      match parseBlocks contentArray with
      | Except.error e => Except.error e
      | Except.ok cbs => Except.ok (Message.assistant cbs)
    | _ => Except.error "assistant message missing \x27content\x27 array"
  | _ => Except.error "assistant message missing \x27message\x27 field"

/-- Model of `parseSystemMessage` (parser, lines 367-377): `subtype` required, `Data` is
the whole raw map. -/
def parseSystemMessage (raw : List (String × JValue)) : Except String Message :=
  match getField raw "subtype" with
  | some (JValue.str subtype) => Except.ok (Message.system subtype raw)
  | _ => Except.error "system message missing \x27subtype\x27 field"

/-- Model of `parseResultMessage` (parser, lines 380-417): only `subtype` is validated;
every other field is assigned only when the type assertion succeeds and is
otherwise left at its zero value (`0`, `false`, `""`, `nil`). -/
def parseResultMessage (raw : List (String × JValue)) : Except String Message :=
  match getField raw "subtype" with
  | some (JValue.str subtype) =>
    let durationMs : Int :=
      match getField raw "duration_ms" with
      | some (JValue.num q) => q.trunc
      | _ => 0
    let durationApiMs : Int :=
      match getField raw "duration_api_ms" with
      | some (JValue.num q) => q.trunc
      | _ => 0
    let isError : Bool :=
      match getField raw "is_error" with
      | some (JValue.bool b) => b
      | _ => false
    let numTurns : Int :=
      match getField raw "num_turns" with
      | some (JValue.num q) => q.trunc
      | _ => 0
    let sessionId : String :=
      match getField raw "session_id" with
      | some (JValue.str s) => s
      | _ => ""
    let totalCostUsd : Option JNum :=
      match getField raw "total_cost_usd" with
      | some (JValue.num q) => some q
      | _ => none
    let usage : Option (List (String × JValue)) :=
      match getField raw "usage" with
      | some (JValue.obj u) => some u
      | _ => none
    let result : Option String :=
      match getField raw "result" with
      | some (JValue.str s) => some s
      | _ => none
    Except.ok (Message.result subtype durationMs durationApiMs isError numTurns
      sessionId totalCostUsd usage result)
  | _ => Except.error "result message missing \x27subtype\x27 field"

/-- The integer fields of a decoded result message, for stating C9. -/
def resultIntFields (r : Except String Message) : Option (Int × Int × Int) :=
  match r with
  | Except.ok (Message.result _ durationMs durationApiMs _ numTurns _ _ _ _) =>
    some (durationMs, durationApiMs, numTurns)
  | _ => none

/-- The dispatch of `parseMessage` (parser, lines 234-253) on an already decoded
JSON object: the `type` discriminator selects the decoder; unknown types yield
`nil, nil` (skipped silently). -/
def parseMessageJ (raw : List (String × JValue)) : Except String (Option Message) :=
  match getField raw "type" with
  | some (JValue.str msgType) =>
    if msgType = "user" then (parseUserMessage raw).map some
    else if msgType = "assistant" then (parseAssistantMessage raw).map some
    else if msgType = "system" then (parseSystemMessage raw).map some
    else if msgType = "result" then (parseResultMessage raw).map some
    else Except.ok none
  | _ => Except.error "message missing \x27type\x27 field"

/-- ASCII JSON whitespace. -/
def isJsonWs (c : Char) : Bool :=
  c == ' ' || c == '\n' || c == '\t' || c == '\r'

/-- One unescaped character of a JSON string literal body.
Models `encoding/json`: rejects unescaped control characters. -/
def escapePairs : List (Char × Char) :=
  [('n', '\n'), ('t', '\t'), ('b', Char.ofNat 8), ('f', Char.ofNat 12),
   ('r', '\r'), ('"', '"'), ('\\', '\\'), ('/', '/')]

def unescape (c : Char) : Option Char :=
  match escapePairs.find? (fun q => q.1 == c) with
  | some q => some q.2
  | none => none

/-- Body of a JSON string literal up to the closing quote.  Supports the
single-character escapes (`\u` escapes are outside the modelled wire subset).
Returns the decoded content and the input after the closing quote. -/
def jstring : List Char → List Char → Option (String × List Char)
  | [], _ => none
  | '"' :: rest, acc => some (String.mk acc.reverse, rest)
  | '\\' :: c :: rest, acc =>
    match unescape c with
    | some d => jstring rest (d :: acc)
    | none => none
  | '\\' :: [], _ => none
  | c :: rest, acc =>
    if c.toNat < 32 then none else jstring rest (c :: acc)

/-- Digit run of a JSON number. -/
def jdigits (l : List Char) : List Char × List Char :=
  (l.takeWhile Char.isDigit, l.dropWhile Char.isDigit)

/-- Value of a digit run. -/
def digitsToNat (ds : List Char) : Nat :=
  ds.foldl (fun n d => 10 * n + (d.toNat - 48)) 0

/-- A JSON number in the modelled wire subset: optional minus sign, integer
part, optional fraction, kept exact (`encoding/json` would round it to the
nearest `float64`). -/
def jnumber (l : List Char) : Option (JNum × List Char) :=
  let (neg, l1) := match l with
    | '-' :: r => (true, r)
    | _ => (false, l)
  let (ip, l2) := jdigits l1
  if ip = [] then none
  else
    let (n, rest) : JNum × List Char :=
      match l2 with
      | '.' :: r =>
        let (fp, l3) := jdigits r
        (⟨Int.ofNat (digitsToNat ip * 10 ^ fp.length + digitsToNat fp), fp.length⟩, l3)
      | _ => (⟨Int.ofNat (digitsToNat ip), 0⟩, l2)
    if neg then some (⟨-n.mantissa, n.scale⟩, rest) else some (n, rest)

mutual

/-- Recursive-descent parse of one JSON value (the modelled subset of
`encoding/json`): `null`, booleans, numbers, strings, arrays, objects.
`fuel` decreases at every recursive call; `jparse` below passes enough fuel
(two units per input character suffice, since at most every other call in a
chain consumes no character) that the fuel never runs out. -/
def jvalue : Nat → List Char → Option (JValue × List Char)
  | 0, _ => none
  | fuel + 1, l =>
    match l.dropWhile isJsonWs with
    | 'n' :: 'u' :: 'l' :: 'l' :: rest => some (JValue.null, rest)
    | 't' :: 'r' :: 'u' :: 'e' :: rest => some (JValue.bool true, rest)
    | 'f' :: 'a' :: 'l' :: 's' :: 'e' :: rest => some (JValue.bool false, rest)
    | '"' :: rest =>
      (match jstring rest [] with
       | some (s, r) => some (JValue.str s, r)
       | none => none)
    | '[' :: rest =>
      (match rest.dropWhile isJsonWs with
       | ']' :: r => some (JValue.arr [], r)
       | r =>
         match jelems fuel r with
         | some (items, r2) => some (JValue.arr items, r2)
         | none => none)
    | '\x7b' :: rest =>
      (match rest.dropWhile isJsonWs with
       | '\x7d' :: r => some (JValue.obj [], r)
       | r =>
         match jfields fuel r with
         | some (fields, r2) => some (JValue.obj fields, r2)
         | none => none)
    | l2 =>
      match jnumber l2 with
      | some (q, r) => some (JValue.num q, r)
      | none => none

/-- Comma-separated array elements after `[`, through the closing `]`. -/
def jelems : Nat → List Char → Option (List JValue × List Char)
  | 0, _ => none
  | fuel + 1, l =>
    match jvalue fuel l with
    | some (v, r) =>
      (match r.dropWhile isJsonWs with
       | ',' :: r2 =>
         (match jelems fuel r2 with
          | some (vs, r3) => some (v :: vs, r3)
          | none => none)
       | ']' :: r2 => some ([v], r2)
       | _ => none)
    | none => none

/-- Comma-separated `"key": value` members after an opening brace, through the
closing brace. -/
def jfields : Nat → List Char → Option (List (String × JValue) × List Char)
  | 0, _ => none
  | fuel + 1, l =>
    match l.dropWhile isJsonWs with
    | '"' :: r =>
      (match jstring r [] with
       | some (k, r2) =>
         (match r2.dropWhile isJsonWs with
          | ':' :: r3 =>
            (match jvalue fuel r3 with
             | some (v, r4) =>
               (match r4.dropWhile isJsonWs with
                | ',' :: r5 =>
                  (match jfields fuel r5 with
                   | some (kvs, r6) => some ((k, v) :: kvs, r6)
                   | none => none)
                | '\x7d' :: r5 => some ([(k, v)], r5)
                | _ => none)
             | none => none)
          | _ => none)
       | none => none)
    | _ => none

end

/-- Model of `json.Unmarshal` on a whole text: exactly one JSON value followed only by
whitespace. -/
def jparse (l : List Char) : Option JValue :=
  match jvalue (2 * l.length + 4) l with
  | some (v, rest) => if rest.dropWhile isJsonWs = [] then some v else none
  | none => none

/-- Model of `parseMessage` (parser, lines 227-253): `json.Unmarshal` into a generic
map, then the `type` dispatch.  Unmarshal fails when the text is not a single
JSON value or its top level is not an object; the error text stands for the
corresponding `encoding/json` message. -/
def decodeText (raw : List Char) : Except String (Option Message) :=
  match jparse raw with
  | some (JValue.obj fields) => parseMessageJ fields
  | some _ => Except.error "json: cannot unmarshal value into map"
  | none => Except.error "invalid JSON"


/-! ## The streaming scanner and buffer (`processChunk` / `extractCompleteMessages`) -/

/-- The scanner state of the inner loop of `extractCompleteMessages` (parser,
lines 122-166): `inString` and `escaped` track string literals, `depth` is the
`braceCount` nesting counter. -/
structure SState where
  inString : Bool
  escaped : Bool
  depth : Int
deriving DecidableEq, Repr

/-- The scanner state at the start of each inner scan: outside a string, not
escaped, zero nesting. -/
def initScan : SState := ⟨false, false, 0⟩

/-- One iteration of the inner scan loop (parser, lines 127-166), without the
completion check: unquoted braces adjust `braceCount`, an unescaped quote
toggles `inString`, and `escaped` is recomputed from the updated `inString`
exactly as in the source (`escaped = !escaped && b == \x27\\\x27`). -/
def sstep (st : SState) (b : Char) : SState :=
  let st1 :=
    if st.inString = false ∧ b = '\x7b' then { st with depth := st.depth + 1 }
    else if st.inString = false ∧ b = '\x7d' then { st with depth := st.depth - 1 }
    else if b = '"' ∧ st.escaped = false then { st with inString := !st.inString }
    else st
  if st1.inString then { st1 with escaped := !st.escaped && b == '\\' }
  else { st1 with escaped := false }

/-- Result of one inner scan of the buffer (parser, lines 119-173):
`complete raw rest` when the nesting counter returned to zero at a closing
brace (lines 137-154), `incomplete fromStart` when input ended with
`jsonStart != -1 && braceCount > 0` (lines 169-173), `noJson` when no object
start was ever seen, and `stuck` when input ended with an object started but
`braceCount <= 0` — in that last state the Go outer loop makes no progress and
spins forever, which the model surfaces as divergence. -/
inductive ScanOut where
  | complete (raw rest : List Char)
  | incomplete (fromStart : List Char)
  | noJson
  | stuck
deriving Repr

/-- The inner scan loop of `extractCompleteMessages`.  `acc` is `none` while
`jsonStart == -1` and otherwise holds, reversed, the bytes accumulated since
`jsonStart` (so that `complete` can return the slice
`p.buffer[jsonStart : i+1]`). -/
def scanGo : List Char → SState → Option (List Char) → ScanOut
  | [], _, none => ScanOut.noJson
  | [], st, some racc => if 0 < st.depth then ScanOut.incomplete racc.reverse else ScanOut.stuck
  | b :: rest, st, acc =>
    if st.inString = false ∧ b = '\x7d' ∧ st.depth = 1 ∧ acc.isSome then
      ScanOut.complete (b :: acc.getD []).reverse rest
    else
      match acc with
      | some r => scanGo rest (sstep st b) (some (b :: r))
      | none =>
        if st.inString = false ∧ b = '\x7b' then scanGo rest (sstep st b) (some [b])
        else scanGo rest (sstep st b) none

/-- The outer loop of `extractCompleteMessages` (parser, lines 114-191),
returning the raw slices of the complete objects found and the remaining
buffer.  After a complete object, and in the `jsonStart == -1` case, the loop
skips ahead to the next unquoted-or-not `\x7b` (lines 176-190).  `none` models
the nonterminating `stuck` spin.  `fuel` only bounds the recursion; every
recursive call strictly shortens the buffer, so the `buf.length + 2` supplied
by `extract` never runs out. -/
def extractLoop : Nat → List Char → Option (List (List Char) × List Char)
  | 0, _ => none
  | fuel + 1, buf =>
    match scanGo buf initScan none with
    | ScanOut.complete raw rest =>
      (match extractLoop fuel (rest.dropWhile (fun c => c != '\x7b')) with
       | some (raws, rem) => some (raw :: raws, rem)
       | none => none)
    | ScanOut.incomplete fromStart => some ([], fromStart)
    | ScanOut.noJson =>
      (match buf.dropWhile (fun c => c != '\x7b') with
       | [] => some ([], [])
       | skipped => extractLoop fuel skipped)
    | ScanOut.stuck => none

/-- Model of `extractCompleteMessages` at the level of raw slices. -/
def extract (buf : List Char) : Option (List (List Char) × List Char) :=
  extractLoop (buf.length + 2) buf

/-- The streaming parser (`Parser` struct, parser lines 18-24). -/
structure GoParser where
  maxBufferSize : Nat
  buffer : List Char
deriving DecidableEq, Repr

/-- Model of `DefaultMaxBufferSize` (parser, line 14): 1 MiB. -/
def DefaultMaxBufferSize : Nat := 1024 * 1024

/-- Model of `NewParser` (parser, lines 28-37): non-positive sizes fall back to the
default. -/
def newParser (maxBufferSize : Nat) : GoParser :=
  if maxBufferSize = 0 then ⟨DefaultMaxBufferSize, []⟩ else ⟨maxBufferSize, []⟩

/-- The two recoverable error shapes the parsing loop emits (parser, lines
91-94 and 146): the overflow error carrying the first 100 bytes of the
oversized buffer plus an ellipsis, and the decode error carrying the offending
raw text and the underlying cause. -/
inductive ParseErr where
  | overflow (maxSize : Nat) (dataPrefix : String)
  | decode (raw : String) (cause : String)
deriving DecidableEq, Repr

/-- The message, if any, that a recognized raw slice contributes to the message
channel (parser, lines 143-149). -/
def rawMsg (raw : List Char) : Option Message :=
  match decodeText raw with
  | Except.ok (some m) => some m
  | _ => none

/-- The error, if any, that a recognized raw slice contributes to the error
channel (parser, line 146). -/
def rawErr (raw : List Char) : Option ParseErr :=
  match decodeText raw with
  | Except.error cause => some (ParseErr.decode (String.mk raw) cause)
  | _ => none

/-- Model of `processChunk` (parser, lines 81-99): append the chunk, check the buffer
bound (overflow clears the buffer and emits one overflow error — when the
oversized buffer is shorter than 100 bytes, `p.buffer[:100]` panics in Go,
modelled as `none`), then extract and decode every complete object.  Returns
the new parser state and the messages and errors emitted on the two channels,
in order. -/
def processChunk (p : GoParser) (chunk : List Char) :
    Option (GoParser × List Message × List ParseErr) :=
  let buf := p.buffer ++ chunk
  if p.maxBufferSize < buf.length then
    if buf.length < 100 then none
    else
      some ({ p with buffer := [] }, [],
        [ParseErr.overflow p.maxBufferSize (String.mk (buf.take 100) ++ "...")])
  else
    match extract buf with
    | some (raws, rem) =>
      some ({ p with buffer := rem }, raws.filterMap rawMsg, raws.filterMap rawErr)
    | none => none

/-- The chunk loop of `ParseMessages` (parser, lines 49-69), accumulating the
channel outputs of `processChunk` over a list of chunks. -/
def runChunks (p : GoParser) : List (List Char) → Option (GoParser × List Message × List ParseErr)
  | [] => some (p, [], [])
  | c :: cs =>
    match processChunk p c with
    | some (p1, ms1, es1) =>
      (match runChunks p1 cs with
       | some (p2, ms2, es2) => some (p2, ms1 ++ ms2, es1 ++ es2)
       | none => none)
    | none => none

/-- Go `strings.TrimSpace` on the modelled ASCII byte level. -/
def trimSpace (l : List Char) : List Char :=
  ((l.dropWhile isJsonWs).reverse.dropWhile isJsonWs).reverse

/-- Model of `processRemainingBuffer` (parser, lines 204-224): on input closure, a final
parse attempt on the trimmed leftover buffer. -/
def processRemainingBuffer (p : GoParser) : List Message × List ParseErr :=
  if p.buffer = [] then ([], [])
  else
    let s := trimSpace p.buffer
    if s = [] then ([], [])
    else
      match decodeText s with
      | Except.error cause => ([], [ParseErr.decode (String.mk s) cause])
      | Except.ok (some m) => ([m], [])
      | Except.ok none => ([], [])

/-- A whole run of the `ParseMessages` goroutine (parser, lines 41-73) on a
finite chunk sequence, without cancellation: process every chunk, then flush
the remaining buffer when the data channel closes.  Returns the contents of
the message channel and the error channel, each in emission order. -/
def parseMessagesRun (p : GoParser) (chunks : List (List Char)) :
    Option (List Message × List ParseErr) :=
  match runChunks p chunks with
  | some (p1, ms, es) =>
    let (ms2, es2) := processRemainingBuffer p1
    some (ms ++ ms2, es ++ es2)
  | none => none


/-! ## Transport (`internal/transport/subprocess.go`) -/

/-- Model of `maxStderrSize` (subprocess.go, line 426): 10 MiB. -/
def maxStderrSize : Nat := 10 * 1024 * 1024

/-- The truncation marker appended when the stderr cap is hit
(subprocess.go, line 458). -/
def truncMarker (total : Nat) : String :=
  "[stderr truncated after " ++ toString total ++ " bytes]"

/-- The connection error wrapping the accumulated stderr output
(subprocess.go, line 445). -/
def stderrConnErr (output : String) : String :=
  "connection error: CLI stderr output: " ++ output

/-- The default per-token cap of a `bufio.Scanner` (`bufio.MaxScanTokenSize`,
64 KiB).  `streamStdout` raises its scanner buffer to 1 MiB with
`scanner.Buffer` (subprocess.go, lines 372-374), but `streamStderr` never
calls `Buffer` on its scanner (line 424), so a stderr line of this many bytes
or more makes `scanner.Scan()` fail with `ErrTooLong` instead of returning
the line. -/
def scanTokenCap : Nat := 64 * 1024

/-- The scan loop of `streamStderr` (subprocess.go, lines 429-464) over the
lines of the stderr stream: accumulate each line while the total stays within
the cap; when a line would cross the cap, append the truncation marker and
`break` out of the loop.  A line of `scanTokenCap` bytes or more is never
returned by `scanner.Scan()`: the scan fails (`ErrTooLong`) and the loop is
left through the same `!scanner.Scan()` branch as end-of-stream, the
over-long line and the rest of the stream unread.  Returns the accumulated
lines and whether the loop ended in the `!scanner.Scan()` branch (end of
stream or scan error) rather than via the truncation `break`. -/
def stderrAccum : List String → List String → Nat → List String × Bool
  | [], acc, _ => (acc, true)
  | line :: rest, acc, total =>
    if scanTokenCap ≤ line.length then (acc, true)
    else if maxStderrSize < total + line.length then (acc ++ [truncMarker total], false)
    else stderrAccum rest (acc ++ [line]) (total + line.length)

/-- A whole run of the `streamStderr` goroutine (subprocess.go, lines 419-465)
over a finite stderr stream, without cancellation: the errors it sends on the
error channel.  The joined accumulated text is emitted only in the
`!scanner.Scan()` branch (lines 439-451), reached at end of stream or when a
line of `scanTokenCap` bytes or more makes the scan fail; the truncation
`break` leaves the loop and the function returns without emitting
anything. -/
def streamStderrRun (lines : List String) : List String :=
  match stderrAccum lines [] 0 with
  | (acc, true) => if acc.length > 0 then [stderrConnErr (String.intercalate "\n" acc)] else []
  | (_, false) => []

/-- How the race in `waitForProcess` (subprocess.go, lines 484-525) resolves:
the process exits naturally with a status (`cmd.Wait` returns an `ExitError`
exactly when the code is non-zero), `cmd.Wait` fails with a non-exit error, or
cancellation/close fires first. -/
inductive WaitOutcome where
  | exited (code : Int)
  | waitFailed (msg : String)
  | ctxCancelled
  | transportClosed
deriving DecidableEq, Repr

/-- The process error for a non-zero natural exit (subprocess.go, line 506).
The formatted message carries the exit code; the accumulated stderr text is
not part of it (it travels separately through `streamStderr`). -/
def processErrMsg (code : Int) : String :=
  "process error: CLI process failed with exit code " ++ toString code

/-- A whole run of the `waitForProcess` goroutine (subprocess.go, lines
468-526): the errors it sends on the error channel before its deferred
`close(errChan)` runs.  Nothing is emitted when `cmd` is nil, on
cancellation/close (the process is killed and reaped), or on a zero exit
status; a non-zero natural exit emits exactly one process error. -/
def waitForProcessRun (cmdExists : Bool) (outcome : WaitOutcome) : List String :=
  if cmdExists = false then []
  else
    match outcome with
    | WaitOutcome.ctxCancelled => []
    | WaitOutcome.transportClosed => []
    | WaitOutcome.exited code => if code = 0 then [] else [processErrMsg code]
    | WaitOutcome.waitFailed msg => ["connection error: process wait failed: " ++ msg]

/-- The errors appearing on the transport error channel in a run where the
stderr stream ends before the process is reaped (one admissible interleaving
of the two sender goroutines); the channel is closed by `waitForProcess`
after all of them. -/
def transportErrRun (stderrLines : List String) (cmdExists : Bool) (outcome : WaitOutcome) :
    List String :=
  streamStderrRun stderrLines ++ waitForProcessRun cmdExists outcome

/-- Whether an error string is a process error (rather than a connection
error), by its `fmt.Errorf` prefix. -/
def isProcessError (e : String) : Bool :=
  List.isPrefixOf "process error:".toList e.toList

/-- Whether `needle` occurs as a contiguous run inside `hay`. -/
def containsSeq (needle : List Char) : List Char → Bool
  | [] => needle.isEmpty
  | b :: t => List.isPrefixOf needle (b :: t) || containsSeq needle t

/-! ## Stream coordinator (`internal/client/stream.go`) -/

/-- An event that can wake the `select` of the `mergeErrors` loop
(stream.go, lines 150-178): an error delivered by one of the two upstream
sources, the observation that one of them is closed (a receive from a closed
channel fires immediately with `ok == false`, so it can recur), or
cancellation of the stream context. -/
inductive MergeEv where
  | transportErr (e : String)
  | transportClosed
  | parseErr (e : String)
  | parseClosed
  | cancel
deriving DecidableEq, Repr

/-- A run of the `mergeErrors` goroutine (stream.go, lines 140-180) over a
schedule of `select` events, starting from the given `transportOpen` /
`parseOpen` flags.  Returns `some forwarded` when the loop exits — at that
point the deferred `close(qs.errors)` closes the public error channel — and
`none` when the schedule is exhausted while the loop still waits on open
sources, i.e. the channel is not closed within the schedule. -/
def mergeErrorsRun : Bool → Bool → List MergeEv → Option (List String)
  | false, false, _ => some []
  | _, _, [] => none
  | tOpen, pOpen, ev :: evs =>
    match ev with
    | MergeEv.cancel => some []
    | MergeEv.transportErr e =>
      (match mergeErrorsRun tOpen pOpen evs with
       | some out => some (e :: out)
       | none => none)
    | MergeEv.transportClosed => mergeErrorsRun false pOpen evs
    | MergeEv.parseErr e =>
      (match mergeErrorsRun tOpen pOpen evs with
       | some out => some (e :: out)
       | none => none)
    | MergeEv.parseClosed => mergeErrorsRun tOpen false evs

/-- Model of `Close` (stream.go, lines 81-103) as a state transition on the `closed`
flag (the `closeMutex` serialises concurrent calls): an already-closed stream
returns `nil` immediately; otherwise the flag is set, the context cancelled,
and the transport closed, returning its error.  The result is the new flag
plus the returned error. -/
def qsClose (closed : Bool) (transportCloseErr : Option String) : Bool × Option String :=
  if closed then (true, none)
  else (true, transportCloseErr)

/-- Model of `IsClosed` (stream.go, lines 106-110). -/
def qsIsClosed (closed : Bool) : Bool := closed


/-! ## Scanner lemmas

`Bal` is the spec-side grammar of brace-balanced byte sequences with
well-formed string literals: the inner content of every syntactically valid
JSON object decomposes into ordinary bytes, string literals (whose bodies pair
every backslash with the following byte), and nested brace groups.  A
syntactically valid JSON object text is `'\x7b' :: inner ++ ['\x7d']` with
`Bal inner`. -/

/-- Well-formed body of a string literal: every byte is either an ordinary
byte (not a quote, not a backslash) or a backslash followed by any byte. -/
inductive StrBody : List Char → Prop where
  | nil : StrBody []
  | norm (c : Char) (t : List Char) : c ≠ '"' → c ≠ '\\' → StrBody t → StrBody (c :: t)
  | esc (c : Char) (t : List Char) : StrBody t → StrBody ('\\' :: c :: t)

/-- Brace-balanced text with well-formed string literals. -/
inductive Bal : List Char → Prop where
  | nil : Bal []
  | raw (c : Char) (t : List Char) : c ≠ '\x7b' → c ≠ '\x7d' → c ≠ '"' → Bal t → Bal (c :: t)
  | lit (b t : List Char) : StrBody b → Bal t → Bal ('"' :: (b ++ '"' :: t))
  | grp (inner t : List Char) : Bal inner → Bal t → Bal ('\x7b' :: (inner ++ '\x7d' :: t))

lemma Bal.append {a b : List Char} (ha : Bal a) (hb : Bal b) : Bal (a ++ b) := by
  induction ha with
  | nil => exact hb
  | raw c t h1 h2 h3 _ ih => exact Bal.raw c (t ++ b) h1 h2 h3 ih
  | lit s t hs _ ih =>
    have := Bal.lit s (t ++ b) hs ih
    simpa using this
  | grp inner t hi _ ihi ih =>
    have := Bal.grp inner (t ++ b) hi ih
    simpa using this

lemma Bal.single (c : Char) (h1 : c ≠ '\x7b') (h2 : c ≠ '\x7d') (h3 : c ≠ '"') : Bal [c] :=
  Bal.raw c [] h1 h2 h3 Bal.nil

lemma StrBody.ofPlain (l : List Char) (h : ∀ c ∈ l, c ≠ '"' ∧ c ≠ '\\') : StrBody l := by
  induction l with
  | nil => exact StrBody.nil
  | cons c t ih =>
    exact StrBody.norm c t (h c (by simp)).1 (h c (by simp)).2
      (ih (fun d hd => h d (by simp [hd])))

lemma Bal.plain (l : List Char) (h : ∀ c ∈ l, c ≠ '\x7b' ∧ c ≠ '\x7d' ∧ c ≠ '"') : Bal l := by
  induction l with
  | nil => exact Bal.nil
  | cons c t ih =>
    exact Bal.raw c t (h c (by simp)).1 (h c (by simp)).2.1 (h c (by simp)).2.2
      (ih (fun d hd => h d (by simp [hd])))

/-- A whole string literal is balanced. -/
lemma Bal.literal (b : List Char) (hb : StrBody b) : Bal ('"' :: (b ++ ['"'])) :=
  Bal.lit b [] hb Bal.nil

/-- A whole brace group is balanced. -/
lemma Bal.group (inner : List Char) (hi : Bal inner) : Bal ('\x7b' :: (inner ++ ['\x7d'])) :=
  Bal.grp inner [] hi Bal.nil

/-! Single-step evaluation lemmas for `scanGo`. -/

lemma scanGo_raw (c : Char) (l : List Char) (d : Int) (r : List Char)
    (h1 : c ≠ '\x7b') (h2 : c ≠ '\x7d') (h3 : c ≠ '"') :
    scanGo (c :: l) ⟨false, false, d⟩ (some r) = scanGo l ⟨false, false, d⟩ (some (c :: r)) := by
  simp [scanGo, sstep, h1, h2, h3]

lemma scanGo_quote_open (l : List Char) (d : Int) (r : List Char) :
    scanGo ('"' :: l) ⟨false, false, d⟩ (some r)
      = scanGo l ⟨true, false, d⟩ (some ('"' :: r)) := by
  simp [scanGo, sstep]

lemma scanGo_quote_close (l : List Char) (d : Int) (r : List Char) :
    scanGo ('"' :: l) ⟨true, false, d⟩ (some r)
      = scanGo l ⟨false, false, d⟩ (some ('"' :: r)) := by
  simp [scanGo, sstep]

lemma scanGo_instring (c : Char) (l : List Char) (d : Int) (r : List Char)
    (h1 : c ≠ '"') (h2 : c ≠ '\\') :
    scanGo (c :: l) ⟨true, false, d⟩ (some r) = scanGo l ⟨true, false, d⟩ (some (c :: r)) := by
  have h2b : (c == '\\') = false := by simp [h2]
  simp [scanGo, sstep, h1, h2, h2b]

lemma scanGo_backslash (l : List Char) (d : Int) (r : List Char) :
    scanGo ('\\' :: l) ⟨true, false, d⟩ (some r)
      = scanGo l ⟨true, true, d⟩ (some ('\\' :: r)) := by
  simp [scanGo, sstep]

lemma scanGo_escaped (c : Char) (l : List Char) (d : Int) (r : List Char) :
    scanGo (c :: l) ⟨true, true, d⟩ (some r) = scanGo l ⟨true, false, d⟩ (some (c :: r)) := by
  simp [scanGo, sstep]

lemma scanGo_open (l : List Char) (d : Int) (r : List Char) :
    scanGo ('\x7b' :: l) ⟨false, false, d⟩ (some r)
      = scanGo l ⟨false, false, d + 1⟩ (some ('\x7b' :: r)) := by
  simp [scanGo, sstep]

lemma scanGo_close (l : List Char) (d : Int) (r : List Char) (hd : d ≠ 1) :
    scanGo ('\x7d' :: l) ⟨false, false, d⟩ (some r)
      = scanGo l ⟨false, false, d - 1⟩ (some ('\x7d' :: r)) := by
  simp [scanGo, sstep, hd]

lemma scanGo_complete (l : List Char) (r : List Char) :
    scanGo ('\x7d' :: l) ⟨false, false, 1⟩ (some r)
      = ScanOut.complete ('\x7d' :: r).reverse l := by
  simp [scanGo]

lemma scanGo_start (l : List Char) :
    scanGo ('\x7b' :: l) initScan none = scanGo l ⟨false, false, 1⟩ (some ['\x7b']) := by
  simp [scanGo, sstep, initScan]

/-- Scanning a well-formed string body from inside a string consumes it and the
closing quote, accumulating the bytes and preserving the depth. -/
lemma scanGo_strBody {b : List Char} (hb : StrBody b) :
    ∀ (d : Int) (r l : List Char),
      scanGo (b ++ '"' :: l) ⟨true, false, d⟩ (some r)
        = scanGo l ⟨false, false, d⟩ (some ('"' :: (b.reverse ++ r))) := by
  induction hb with
  | nil => intro d r l; simpa using scanGo_quote_close l d r
  | norm c t h1 h2 _ ih =>
    intro d r l
    rw [List.cons_append, scanGo_instring c _ d r h1 h2, ih d (c :: r) l]
    simp
  | esc c t _ ih =>
    intro d r l
    rw [List.cons_append, List.cons_append, scanGo_backslash _ d r,
      scanGo_escaped c _ d ('\\' :: r), ih d (c :: '\\' :: r) l]
    simp

/-- Scanning balanced text from outside a string at depth at least one
consumes it, accumulating the bytes, triggering no completion, and preserving
the depth. -/
lemma scanGo_bal {body : List Char} (hb : Bal body) :
    ∀ (d : Int), 1 ≤ d → ∀ (r l : List Char),
      scanGo (body ++ l) ⟨false, false, d⟩ (some r)
        = scanGo l ⟨false, false, d⟩ (some (body.reverse ++ r)) := by
  induction hb with
  | nil => intro d _ r l; simp
  | raw c t h1 h2 h3 _ ih =>
    intro d hd r l
    rw [List.cons_append, scanGo_raw c _ d r h1 h2 h3, ih d hd (c :: r) l]
    simp
  | lit b t hsb _ ih =>
    intro d hd r l
    rw [List.cons_append, scanGo_quote_open _ d r]
    have : (b ++ '"' :: t) ++ l = b ++ '"' :: (t ++ l) := by simp
    rw [this, scanGo_strBody hsb d ('"' :: r) (t ++ l), ih d hd _ l]
    simp
  | grp inner t hi ht ihi iht =>
    intro d hd r l
    rw [List.cons_append, scanGo_open _ d r]
    have : (inner ++ '\x7d' :: t) ++ l = inner ++ '\x7d' :: (t ++ l) := by simp
    rw [this, ihi (d + 1) (by omega) ('\x7b' :: r) ('\x7d' :: (t ++ l)),
      scanGo_close _ (d + 1) _ (by omega)]
    have : d + 1 - 1 = d := by omega
    rw [this, iht d hd ('\x7d' :: (inner.reverse ++ '\x7b' :: r)) l]
    simp

/-- Scanning a syntactically valid JSON object text recognizes exactly the
whole object, whatever follows. -/
lemma scanGo_objText {inner : List Char} (hb : Bal inner) (l : List Char) :
    scanGo (('\x7b' :: (inner ++ ['\x7d'])) ++ l) initScan none
      = ScanOut.complete ('\x7b' :: (inner ++ ['\x7d'])) l := by
  rw [List.cons_append, scanGo_start]
  have : (inner ++ ['\x7d']) ++ l = inner ++ '\x7d' :: l := by simp
  rw [this, scanGo_bal hb 1 (by omega) ['\x7b'] ('\x7d' :: l), scanGo_complete]
  simp


/-- The depth change of one scan step. -/
lemma sstep_depth (st : SState) (b : Char) :
    (sstep st b).depth =
      if st.inString = false ∧ b = '\x7b' then st.depth + 1
      else if st.inString = false ∧ b = '\x7d' then st.depth - 1
      else st.depth := by
  unfold sstep
  set_option linter.unnecessarySeqFocus false in
  by_cases h1 : st.inString = false ∧ b = '\x7b' <;>
    by_cases h2 : st.inString = false ∧ b = '\x7d' <;>
      simp_all <;> split_ifs <;> simp_all

/-- If the completion test of a scan step does not fire and the depth was at
least one, the depth after the step is still at least one. -/
lemma sstep_depth_ge (st : SState) (b : Char) (h1 : 1 ≤ st.depth)
    (h2 : ¬(st.inString = false ∧ b = '\x7d' ∧ st.depth = 1)) :
    1 ≤ (sstep st b).depth := by
  rw [sstep_depth]
  split_ifs with c1 c2
  · omega
  · have : ¬st.depth = 1 := fun h => h2 ⟨c2.1, c2.2, h⟩
    omega
  · omega

/-- Completion is decided byte by byte: extending the input after a completed
scan only extends the returned rest. -/
lemma scanGo_append {l : List Char} :
    ∀ (st : SState) (acc : Option (List Char)) (raw rest l2 : List Char),
      scanGo l st acc = ScanOut.complete raw rest →
      scanGo (l ++ l2) st acc = ScanOut.complete raw (rest ++ l2) := by
  induction l with
  | nil =>
    intro st acc raw rest l2 h
    cases acc <;> simp [scanGo] at h
    split at h <;> simp_all
  | cons b l ih =>
    intro st acc raw rest l2 h
    rw [List.cons_append]
    simp only [scanGo] at h ⊢
    split at h
    · simp_all
    · next hc =>
      rw [if_neg hc]
      cases acc with
      | some r => exact ih _ _ _ _ _ h
      | none =>
        simp only at h ⊢
        split at h
        · rw [if_pos (by assumption)]
          exact ih _ _ _ _ _ h
        · rw [if_neg (by assumption)]
          exact ih _ _ _ _ _ h

/-- A proper prefix of an input whose scan completes somewhere in the removed
suffix scans to `incomplete`, retaining everything accumulated so far, as long
as the scan starts at depth at least one. -/
lemma scanGo_complete_front {p : List Char} :
    ∀ (l : List Char) (st : SState) (r raw rest : List Char),
      scanGo (p ++ l) st (some r) = ScanOut.complete raw rest →
      rest.length < l.length → 1 ≤ st.depth →
      scanGo p st (some r) = ScanOut.incomplete (r.reverse ++ p) := by
  induction p with
  | nil =>
    intro l st r raw rest _ _ hd
    have : (0 : Int) < st.depth := by omega
    simp [scanGo, this]
  | cons b p ih =>
    intro l st r raw rest h hlen hd
    rw [List.cons_append] at h
    simp only [scanGo] at h ⊢
    split at h
    · exfalso
      have : rest = p ++ l := by simp_all
      subst this
      simp [List.length_append] at hlen
    · next hc =>
      rw [if_neg hc]
      have hd2 : 1 ≤ (sstep st b).depth := by
        apply sstep_depth_ge st b hd
        intro hcc
        exact hc ⟨hcc.1, hcc.2.1, hcc.2.2, rfl⟩
      have hrec := ih l (sstep st b) (b :: r) raw rest h hlen hd2
      rw [hrec]
      simp

/-- A prefix of an input whose scan stays incomplete scans to `incomplete`
itself, retaining everything accumulated so far, as long as the scan starts at
depth at least one. -/
lemma scanGo_incomplete_front {p : List Char} :
    ∀ (l : List Char) (st : SState) (r out : List Char),
      scanGo (p ++ l) st (some r) = ScanOut.incomplete out →
      1 ≤ st.depth →
      scanGo p st (some r) = ScanOut.incomplete (r.reverse ++ p) := by
  induction p with
  | nil =>
    intro l st r out _ hd
    have : (0 : Int) < st.depth := by omega
    simp [scanGo, this]
  | cons b p ih =>
    intro l st r out h hd
    rw [List.cons_append] at h
    simp only [scanGo] at h ⊢
    split at h
    · simp_all
    · next hc =>
      rw [if_neg hc]
      have hd2 : 1 ≤ (sstep st b).depth := by
        apply sstep_depth_ge st b hd
        intro hcc
        exact hc ⟨hcc.1, hcc.2.1, hcc.2.2, rfl⟩
      have hrec := ih l (sstep st b) (b :: r) out h hd2
      rw [hrec]
      simp

/-- The rest returned by a completed scan is no longer than the input. -/
lemma scanGo_rest_length {l : List Char} :
    ∀ (st : SState) (acc : Option (List Char)) (raw rest : List Char),
      scanGo l st acc = ScanOut.complete raw rest → rest.length ≤ l.length := by
  induction l with
  | nil =>
    intro st acc raw rest h
    cases acc <;> simp [scanGo] at h
    split at h <;> simp_all
  | cons b l ih =>
    intro st acc raw rest h
    simp only [scanGo] at h
    split at h
    · have : rest = l := by simp_all
      subst this
      simp
    · have hle : rest.length ≤ l.length := by
        cases acc with
        | some r => exact ih _ _ _ _ h
        | none =>
          simp only at h
          split at h
          · exact ih _ _ _ _ h
          · exact ih _ _ _ _ h
      simp
      omega

/-- The retained buffer of an incomplete scan is no longer than the
accumulator plus the input. -/
lemma scanGo_incomplete_length {l : List Char} :
    ∀ (st : SState) (acc : Option (List Char)) (out : List Char),
      scanGo l st acc = ScanOut.incomplete out →
      out.length ≤ (match acc with | some r => r.length | none => 0) + l.length := by
  induction l with
  | nil =>
    intro st acc out h
    cases acc with
    | none => simp [scanGo] at h
    | some r =>
      simp only [scanGo] at h
      split at h
      · injection h with h2
        subst h2
        simp
      · simp at h
  | cons b l ih =>
    intro st acc out h
    simp only [scanGo] at h
    split at h
    · simp_all
    · cases acc with
      | some r =>
        have := ih _ _ _ h
        simp at this ⊢
        omega
      | none =>
        simp only at h
        split at h
        · have := ih _ _ _ h
          simp at this ⊢
          omega
        · have := ih _ _ _ h
          simp at this ⊢
          omega

/-! ## Extraction lemmas -/

/-- An incomplete scan leaves the retained bytes in the buffer and emits
nothing. -/
lemma extractLoop_incomplete {buf : List Char} (fuel : Nat)
    (h : scanGo buf initScan none = ScanOut.incomplete buf) :
    extractLoop (fuel + 1) buf = some ([], buf) := by
  simp [extractLoop, h]

/-- Fact about `extract` on an empty buffer. -/
lemma extract_nil : extract [] = some ([], []) := rfl

/-- A buffer that is the concatenation of scanner-complete objects, each
starting with an opening brace, extracts exactly those objects and leaves an
empty buffer. -/
lemma extractLoop_chain {ss : List (List Char)} :
    ∀ (fuel : Nat), ss.length < fuel →
      (∀ s ∈ ss, (∃ t, s = '\x7b' :: t) ∧ scanGo s initScan none = ScanOut.complete s []) →
      extractLoop fuel ss.flatten = some (ss, []) := by
  induction ss with
  | nil =>
    intro fuel hf _
    match fuel, hf with
    | fuel + 1, _ => simp [extractLoop, scanGo]
  | cons s ss ih =>
    intro fuel hf hall
    match fuel, hf with
    | fuel + 1, hf =>
      have hs := hall s (by simp)
      have hscan : scanGo (s ++ ss.flatten) initScan none = ScanOut.complete s ss.flatten := by
        have := scanGo_append initScan none s [] ss.flatten hs.2
        simpa using this
      have hdrop : ss.flatten.dropWhile (fun c => c != '\x7b') = ss.flatten := by
        cases ss with
        | nil => rfl
        | cons s2 ss2 =>
          obtain ⟨t2, ht2⟩ := (hall s2 (by simp)).1
          simp [ht2, List.flatten]
      have hrec : extractLoop fuel ss.flatten = some (ss, []) := by
        apply ih fuel (by simp at hf; omega)
        intro x hx
        exact hall x (by simp [hx])
      simp [List.flatten, extractLoop, hscan, hdrop, hrec]

/-- Fact about `processChunk` under the buffer bound, in terms of `extract`. -/
lemma processChunk_eq {p : GoParser} {c b : List Char} {raws : List (List Char)}
    {rem : List Char} (hbuf : p.buffer ++ c = b)
    (hlen : b.length ≤ p.maxBufferSize) (hex : extract b = some (raws, rem)) :
    processChunk p c
      = some ({ p with buffer := rem }, raws.filterMap rawMsg, raws.filterMap rawErr) := by
  unfold processChunk
  rw [hbuf, if_neg (by omega), hex]

/-- Fact about `processChunk` in the overflow case: the buffer exceeded the bound and is
at least 100 bytes long, so one overflow error is emitted and the buffer is
cleared. -/
lemma processChunk_overflow {p : GoParser} {c b : List Char} (hbuf : p.buffer ++ c = b)
    (hlen : p.maxBufferSize < b.length) (h100 : 100 ≤ b.length) :
    processChunk p c
      = some ({ p with buffer := [] }, [],
          [ParseErr.overflow p.maxBufferSize (String.mk (b.take 100) ++ "...")]) := by
  unfold processChunk
  rw [hbuf, if_pos hlen, if_neg (by omega)]

/-- Dropping a prefix cannot lengthen a list. -/
lemma dropWhile_length_le {α : Type} (p : α → Bool) (l : List α) :
    (l.dropWhile p).length ≤ l.length := by
  induction l with
  | nil => simp
  | cons a t ih =>
    rw [List.dropWhile]
    split
    · simp
      omega
    · simp

/-- The buffer bound invariant: whatever `processChunk` returns (panic and
divergence excluded by the `some`), the new buffer fits the configured
bound. -/
lemma extractLoop_rem_length {fuel : Nat} :
    ∀ {buf : List Char} {raws : List (List Char)} {rem : List Char},
      extractLoop fuel buf = some (raws, rem) → rem.length ≤ buf.length := by
  induction fuel with
  | zero => intro buf raws rem h; simp [extractLoop] at h
  | succ fuel ih =>
    intro buf raws rem h
    simp only [extractLoop] at h
    split at h
    · next raw rest hscan =>
      split at h
      · next raws2 rem2 hrec =>
        have h1 : rem.length ≤ (rest.dropWhile (fun c => c != '\x7b')).length := by
          have := ih hrec
          simp_all
        have h2 : (rest.dropWhile (fun c => c != '\x7b')).length ≤ rest.length :=
          dropWhile_length_le _ rest
        have h3 : rest.length ≤ buf.length := scanGo_rest_length initScan none raw rest hscan
        exact le_trans h1 (le_trans h2 h3)
      · simp at h
    · next out hscan =>
      have := scanGo_incomplete_length initScan none out hscan
      simp at this
      simp_all
    · next hscan =>
      rcases hdw : buf.dropWhile (fun c => c != '\x7b') with _ | ⟨a, t⟩ <;> rw [hdw] at h
      · simp at h
        simp [h.2]
      · have h1 : rem.length ≤ (a :: t).length := ih h
        have h2 : (a :: t).length ≤ buf.length := by
          rw [← hdw]
          exact dropWhile_length_le _ buf
        omega
    · simp at h

/-- Claim C4\x27s invariant part: after any successful `processChunk`, the
buffer never exceeds the configured bound. -/
lemma processChunk_buffer_bound {p : GoParser} {c : List Char} {res} 
    (h : processChunk p c = some res) : res.1.buffer.length ≤ p.maxBufferSize := by
  simp only [processChunk] at h
  split at h
  · split at h
    · simp at h
    · injection h with h2
      subst h2
      simp
  · next hlen =>
    split at h
    · next raws rem hex =>
      injection h with h2
      subst h2
      have hr := extractLoop_rem_length hex
      simp only [List.length_append] at hr hlen
      simp
      omega
    · simp at h

/-! ## Run-level lemmas -/

/-- When the scan of the whole buffer is incomplete, retaining everything,
`extract` emits nothing and keeps the buffer. -/
lemma extract_incomplete {buf : List Char}
    (h : scanGo buf initScan none = ScanOut.incomplete buf) :
    extract buf = some ([], buf) :=
  extractLoop_incomplete (buf.length + 1) h

/-- A list of nonempty lists is no longer than its concatenation. -/
lemma length_le_flatten {ss : List (List Char)} (h : ∀ s ∈ ss, s ≠ []) :
    ss.length ≤ ss.flatten.length := by
  induction ss with
  | nil => simp
  | cons x xs ih =>
    have hx : x ≠ [] := h x (by simp)
    have h1 : 1 ≤ x.length := by
      cases x
      · simp at hx
      · simp
    have ihh : xs.length ≤ xs.flatten.length := ih (fun y hy => h y (by simp [hy]))
    simp only [List.flatten_cons, List.length_append, List.length_cons]
    omega

/-- Fact about `extract` on a concatenation of scanner-complete objects. -/
lemma extract_chain {l : List (List Char)}
    (hall : ∀ s ∈ l, (∃ t, s = '\x7b' :: t) ∧ scanGo s initScan none = ScanOut.complete s []) :
    extract l.flatten = some (l, []) := by
  apply extractLoop_chain _ _ hall
  have : l.length ≤ l.flatten.length := by
    apply length_le_flatten
    intro x hx
    obtain ⟨t, ht⟩ := (hall x hx).1
    simp [ht]
  omega

/-- A run on chunks that carry no bytes leaves an empty-buffer parser alone
and emits nothing. -/
lemma runChunks_nil_bytes {mx : Nat} :
    ∀ (cs : List (List Char)), cs.flatten = [] →
      runChunks ⟨mx, []⟩ cs = some (⟨mx, []⟩, [], []) := by
  intro cs
  induction cs with
  | nil => intro _; rfl
  | cons c cs ih =>
    intro h
    rw [List.flatten_cons] at h
    have hc := List.append_eq_nil.mp h
    have hpc : processChunk ⟨mx, []⟩ c = some (⟨mx, []⟩, [], []) := by
      have := processChunk_eq (p := ⟨mx, []⟩) (c := c) (b := [])
        (by simp [hc.1]) (by simp) extract_nil
      simpa using this
    simp [runChunks, hpc, ih hc.2]

/-- A run on concatenated chunk lists composes. -/
lemma runChunks_append_ok {p : GoParser} {xs : List (List Char)} {p1 : GoParser}
    {a : List Message} {b : List ParseErr} (ys : List (List Char))
    (h : runChunks p xs = some (p1, a, b)) :
    runChunks p (xs ++ ys)
      = match runChunks p1 ys with
        | some (p2, a2, b2) => some (p2, a ++ a2, b ++ b2)
        | none => none := by
  induction xs generalizing p a b with
  | nil =>
    simp only [runChunks, Option.some.injEq, Prod.mk.injEq] at h
    obtain ⟨hp, ha, hb⟩ := h
    subst hp; subst ha; subst hb
    cases hys : runChunks p ys with
    | none => simp [hys]
    | some r =>
      cases r with
      | mk p2 r2 => cases r2 with | mk a2 b2 => simp [hys]
  | cons x xs ih =>
    rw [List.cons_append]
    simp only [runChunks] at h ⊢
    cases hpc : processChunk p x with
    | none => rw [hpc] at h; simp at h
    | some r =>
      cases r with
      | mk q r1 =>
        cases r1 with
        | mk ms es =>
          rw [hpc] at h
          dsimp only at h ⊢
          cases hrun : runChunks q xs with
          | none => rw [hrun] at h; simp at h
          | some r2 =>
            cases r2 with
            | mk p2 r3 =>
              cases r3 with
              | mk ms2 es2 =>
                rw [hrun] at h
                simp only [Option.some.injEq, Prod.mk.injEq] at h
                obtain ⟨hp, ha, hb⟩ := h
                subst hp; subst ha; subst hb
                rw [ih hrun]
                cases hys : runChunks p2 ys with
                | none => simp
                | some r4 =>
                  cases r4 with
                  | mk p3 r5 =>
                    cases r5 with
                    | mk a3 b3 => simp

/-- Every prefix of a syntactically valid JSON object text extracts to
nothing, with the whole prefix retained in the buffer. -/
lemma extract_prefix_of_object {inner s : List Char} (hbal : Bal inner)
    (hs : s = '\x7b' :: (inner ++ ['\x7d'])) :
    ∀ (p r : List Char), p ++ r = s → r ≠ [] → extract p = some ([], p) := by
  intro p r hpr hr
  cases p with
  | nil => exact extract_nil
  | cons b q =>
    rw [hs, List.cons_append] at hpr
    injection hpr with hb hqr
    subst hb
    have hfull : scanGo (inner ++ ['\x7d']) ⟨false, false, 1⟩ (some ['\x7b'])
        = ScanOut.complete s [] := by
      have h0 := scanGo_objText hbal []
      rw [List.append_nil, scanGo_start] at h0
      rw [← hs] at h0
      exact h0
    have hqfull : scanGo (q ++ r) ⟨false, false, 1⟩ (some ['\x7b'])
        = ScanOut.complete s [] := by rw [hqr]; exact hfull
    have hrlen : (0 : Nat) < r.length := by
      cases r
      · simp at hr
      · simp
    have hq : scanGo q ⟨false, false, 1⟩ (some ['\x7b'])
        = ScanOut.incomplete (['\x7b'].reverse ++ q) :=
      scanGo_complete_front r ⟨false, false, 1⟩ ['\x7b'] s [] hqfull (by simpa using hrlen)
        (by simp)
    have hscan : scanGo ('\x7b' :: q) initScan none = ScanOut.incomplete ('\x7b' :: q) := by
      rw [scanGo_start, hq]
      simp
    exact extract_incomplete hscan

/-- Fact about `extract` on exactly one scanner-complete object. -/
lemma extract_object {s : List Char} (hhead : ∃ t, s = '\x7b' :: t)
    (hscan : scanGo s initScan none = ScanOut.complete s []) :
    extract s = some ([s], []) := by
  have h := extract_chain (l := [s]) (by
    intro x hx
    simp at hx
    subst hx
    exact ⟨hhead, hscan⟩)
  simpa using h

/-- The scan of a syntactically valid JSON object text, exactly. -/
lemma scan_object {inner s : List Char} (hbal : Bal inner)
    (hs : s = '\x7b' :: (inner ++ ['\x7d'])) :
    scanGo s initScan none = ScanOut.complete s [] := by
  subst hs
  have h0 := scanGo_objText hbal []
  rwa [List.append_nil] at h0

/-- Feeding the bytes of one syntactically valid JSON object that decodes to a
message, chunked arbitrarily, from any parser state whose buffer holds the
part already seen: the run emits exactly that message, no errors, and empties
the buffer. -/
lemma runChunks_object {mx : Nat} {inner s : List Char} (hbal : Bal inner)
    (hs : s = '\x7b' :: (inner ++ ['\x7d'])) (hsz : s.length ≤ mx) {m : Message}
    (hdec : decodeText s = Except.ok (some m)) :
    ∀ (chunks : List (List Char)) (pre : List Char),
      pre ++ chunks.flatten = s → chunks.flatten ≠ [] →
      runChunks ⟨mx, pre⟩ chunks = some (⟨mx, []⟩, [m], []) := by
  intro chunks
  induction chunks with
  | nil => intro pre h hne; simp at hne
  | cons c cs ih =>
    intro pre h hne
    rw [List.flatten_cons] at h
    by_cases hcs : cs.flatten = []
    · have hpre : pre ++ c = s := by
        rw [hcs] at h
        simpa using h
      have hscan := scan_object hbal hs
      have hex : extract s = some ([s], []) := extract_object ⟨inner ++ ['\x7d'], hs⟩ hscan
      have hpc := processChunk_eq (p := ⟨mx, pre⟩) (c := c) hpre
        (by simpa using hsz) hex
      have hm : List.filterMap rawMsg [s] = [m] := by simp [rawMsg, hdec]
      have he : List.filterMap rawErr [s] = [] := by simp [rawErr, hdec]
      rw [runChunks, hpc]
      dsimp only
      rw [hm, he, runChunks_nil_bytes cs hcs]
      simp
    · have hsplit : (pre ++ c) ++ cs.flatten = s := by
        rw [← h]
        simp
      have hex : extract (pre ++ c) = some ([], pre ++ c) :=
        extract_prefix_of_object hbal hs (pre ++ c) cs.flatten hsplit hcs
      have hlen : (pre ++ c).length ≤ mx := by
        have h1 : (pre ++ c).length ≤ s.length := by
          rw [← hsplit]
          simp
        omega
      have hpc := processChunk_eq (p := ⟨mx, pre⟩) (c := c) rfl hlen hex
      rw [runChunks, hpc]
      dsimp only
      rw [ih (pre ++ c) hsplit hcs]
      simp

/-- Fact about `newParser` always starts with an empty buffer. -/
lemma newParser_eq (mx : Nat) : newParser mx = ⟨(newParser mx).maxBufferSize, []⟩ := by
  unfold newParser
  split <;> rfl

/-- A run that ends with an empty buffer needs no final flush. -/
lemma parseMessagesRun_of_runChunks {p : GoParser} {chunks : List (List Char)} {mx : Nat}
    {ms : List Message} {es : List ParseErr}
    (h : runChunks p chunks = some (⟨mx, []⟩, ms, es)) :
    parseMessagesRun p chunks = some (ms, es) := by
  unfold parseMessagesRun
  rw [h]
  simp [processRemainingBuffer]

/-! ## Claim C1 -/

/-- Claim C1, counterexample. `\x7b\x7d` is a syntactically valid JSON object
(our `Unmarshal` model decodes it to the empty object), and splitting it into
the two chunks `\x7b` and `\x7d` makes the parser emit *zero* decoded messages
— a decode error for the missing `type` field instead — so "feeding the
chunks to the parser in order emits exactly one decoded message" is false as
stated.  (The single-chunk delivery emits zero messages as well.) -/
theorem c1_counterexample :
    jparse ['\x7b', '\x7d'] = some (JValue.obj []) ∧
    parseMessagesRun (newParser 1024) [['\x7b'], ['\x7d']]
      = some ([], [ParseErr.decode "\x7b\x7d" "message missing \x27type\x27 field"]) ∧
    parseMessagesRun (newParser 1024) [['\x7b', '\x7d']]
      = some ([], [ParseErr.decode "\x7b\x7d" "message missing \x27type\x27 field"]) :=
  ⟨rfl, rfl, rfl⟩

/-- Claim C1 (amended: the object must decode to a recognized protocol message
and fit the configured buffer bound).  For every syntactically valid JSON
object text `s` — an opening brace, balanced inner content, a closing brace —
that the decoder maps to a message `m`, and every split of `s` into N ≥ 2
chunks at arbitrary byte offsets, feeding the chunks in order emits exactly
one decoded message, equal to the one emitted when `s` arrives in a single
chunk, and no errors.  The recognition is by brace matching alone: neither
`s` nor the chunk boundaries involve newlines in any way. -/
theorem c1_fragmentation_invariance (mx : Nat) (inner s : List Char)
    (chunks : List (List Char)) (m : Message)
    (hbal : Bal inner) (hs : s = '\x7b' :: (inner ++ ['\x7d']))
    (hflat : chunks.flatten = s) (hN : 2 ≤ chunks.length)
    (hsz : s.length ≤ (newParser mx).maxBufferSize)
    (hdec : decodeText s = Except.ok (some m)) :
    parseMessagesRun (newParser mx) chunks = some ([m], []) ∧
    parseMessagesRun (newParser mx) [s] = some ([m], []) := by
  have hne : s ≠ [] := by rw [hs]; simp
  constructor
  · apply parseMessagesRun_of_runChunks
    rw [newParser_eq mx]
    exact runChunks_object hbal hs hsz hdec chunks [] (by simpa using hflat)
      (by rw [hflat]; exact hne)
  · apply parseMessagesRun_of_runChunks
    rw [newParser_eq mx]
    exact runChunks_object hbal hs hsz hdec [s] [] (by simp) (by simpa using hne)

/-- Claim C1, witness. The user message `\x7b"type":"user","message":\x7b"content":"Hi"\x7d\x7d`
split mid-key into two chunks decodes to exactly one `UserMessage "Hi"`, the
same as in one chunk. -/
theorem c1_fragmentation_invariance_witness :
    parseMessagesRun (newParser 1024)
        [("\x7b\"type\":\"user\",\"mess").toList, ("age\":\x7b\"content\":\"Hi\"\x7d\x7d").toList]
      = some ([Message.user "Hi"], []) ∧
    parseMessagesRun (newParser 1024)
        [("\x7b\"type\":\"user\",\"message\":\x7b\"content\":\"Hi\"\x7d\x7d").toList]
      = some ([Message.user "Hi"], []) := by
  have hk : ∀ (k : String), (∀ c ∈ k.toList, c ≠ '"' ∧ c ≠ '\\') →
      Bal ('"' :: (k.toList ++ ['"'])) :=
    fun k h => Bal.literal _ (StrBody.ofPlain _ h)
  have hcolon : Bal [':'] := Bal.single ':' (by decide) (by decide) (by decide)
  have hcomma : Bal [','] := Bal.single ',' (by decide) (by decide) (by decide)
  have hinner2 := Bal.append (hk "content" (by decide))
    (Bal.append hcolon (hk "Hi" (by decide)))
  have hinner := Bal.append (hk "type" (by decide)) (Bal.append hcolon
    (Bal.append (hk "user" (by decide)) (Bal.append hcomma
      (Bal.append (hk "message" (by decide)) (Bal.append hcolon
        (Bal.group _ hinner2))))))
  exact c1_fragmentation_invariance 1024 _
    ("\x7b\"type\":\"user\",\"message\":\x7b\"content\":\"Hi\"\x7d\x7d").toList
    [("\x7b\"type\":\"user\",\"mess").toList, ("age\":\x7b\"content\":\"Hi\"\x7d\x7d").toList]
    (Message.user "Hi") hinner (by decide) (by decide) (by decide) (by decide) rfl

/-! ## Claim C4 -/

/-- Every prefix of a buffer that scans to incomplete-with-full-retention
extracts to nothing, retaining the whole prefix. -/
lemma extract_prefix_of_incomplete {s t : List Char} (hhead : s = '\x7b' :: t)
    (hscan : scanGo s initScan none = ScanOut.incomplete s) :
    ∀ (p r : List Char), p ++ r = s → extract p = some ([], p) := by
  intro p r hpr
  cases p with
  | nil => exact extract_nil
  | cons b q =>
    rw [hhead, List.cons_append] at hpr
    injection hpr with hb hqr
    subst hb
    have hfull : scanGo t ⟨false, false, 1⟩ (some ['\x7b'])
        = ScanOut.incomplete ('\x7b' :: t) := by
      have h0 := hscan
      rw [hhead, scanGo_start] at h0
      exact h0
    have hqfull : scanGo (q ++ r) ⟨false, false, 1⟩ (some ['\x7b'])
        = ScanOut.incomplete ('\x7b' :: t) := by
      rw [hqr]; exact hfull
    have hq := scanGo_incomplete_front r ⟨false, false, 1⟩ ['\x7b'] ('\x7b' :: t) hqfull
      (by simp)
    have hscan2 : scanGo ('\x7b' :: q) initScan none = ScanOut.incomplete ('\x7b' :: q) := by
      rw [scanGo_start, hq]
      simp
    exact extract_incomplete hscan2

/-- Feeding chunks of a never-completing object accumulates them all in the
buffer, emitting nothing, while the accumulated bytes stay within the
bound. -/
lemma runChunks_incomplete_phase {mx : Nat} {s t : List Char} (hhead : s = '\x7b' :: t)
    (hscan : scanGo s initScan none = ScanOut.incomplete s) :
    ∀ (cs : List (List Char)) (pre r : List Char),
      (pre ++ cs.flatten) ++ r = s → (pre ++ cs.flatten).length ≤ mx →
      runChunks ⟨mx, pre⟩ cs = some (⟨mx, pre ++ cs.flatten⟩, [], []) := by
  intro cs
  induction cs with
  | nil => intro pre r _ _; simp [runChunks]
  | cons c cs ih =>
    intro pre r hsplit hlen
    rw [List.flatten_cons] at hsplit hlen
    have hassoc : ((pre ++ c) ++ cs.flatten) ++ r = s := by
      rw [← hsplit]; simp
    have hex : extract (pre ++ c) = some ([], pre ++ c) :=
      extract_prefix_of_incomplete hhead hscan (pre ++ c) (cs.flatten ++ r)
        (by rw [← hassoc]; simp)
    have hlen2 : (pre ++ c).length ≤ mx := by
      simp only [List.length_append] at hlen ⊢
      omega
    have hpc := processChunk_eq (p := ⟨mx, pre⟩) (c := c) rfl hlen2 hex
    rw [runChunks, hpc]
    dsimp only
    rw [ih (pre ++ c) r hassoc (by simpa using hlen)]
    simp

/-- One chunk through `runChunks`. -/
lemma runChunks_one (p : GoParser) (c : List Char) :
    runChunks p [c]
      = match processChunk p c with
        | some (p1, a, b) => some (p1, a, b)
        | none => none := by
  unfold runChunks
  cases processChunk p c with
  | none => rfl
  | some r =>
    cases r with
    | mk p1 r1 =>
      cases r1 with
      | mk a b => simp [runChunks]

/-- One scanner-complete, decodable object in its own chunk. -/
lemma runChunks_single_object {mx : Nat} {s2 t2 : List Char} {m2 : Message}
    (hhead : s2 = '\x7b' :: t2)
    (hscan : scanGo s2 initScan none = ScanOut.complete s2 [])
    (hdec : decodeText s2 = Except.ok (some m2)) (hlen : s2.length ≤ mx) :
    runChunks ⟨mx, []⟩ [s2] = some (⟨mx, []⟩, [m2], []) := by
  have hex : extract s2 = some ([s2], []) := extract_object ⟨t2, hhead⟩ hscan
  have hpc := processChunk_eq (p := ⟨mx, []⟩) (c := s2) (by simp) (by simpa using hlen) hex
  rw [runChunks_one, hpc]
  simp [rawMsg, rawErr, hdec]

/-- Fact about `newParser` with a positive size. -/
lemma newParser_pos {mx : Nat} (h : mx ≠ 0) : newParser mx = ⟨mx, []⟩ := by
  unfold newParser
  rw [if_neg h]

/-- Claim C4, counterexample. Chunks of non-JSON noise whose total size (6
bytes) exceeds the configured maximum buffer size (5 bytes) and that never
complete a JSON object produce *zero* overflow errors: the buffer is cleared
after every chunk because no object start is retained, so it never grows past
the bound and the overflow path is never taken.  "Exactly one overflow error"
is therefore false as stated. -/
theorem c4_counterexample :
    5 < ("aaa".toList ++ "aaa".toList).length ∧
    parseMessagesRun (newParser 5) ["aaa".toList, "aaa".toList] = some ([], []) :=
  ⟨by decide, rfl⟩

/-- Claim C4 (amended: the chunks must keep an unterminated JSON object in the
buffer — an opening brace whose object never completes — with the bound
crossed at the last chunk).  Feeding chunks whose concatenation `s` starts an
object that never completes, where the bytes before the last chunk still fit
the configured bound `mx` (at least 100 so that Go\x27s `p.buffer[:100]` slice
is in range) and the whole of `s` exceeds it, emits exactly one overflow
error, carrying the first 100 bytes of the offending buffer plus an ellipsis,
and clears the buffer; after any successful `processChunk` the buffer is
within the bound; and a subsequent valid object on a later chunk still parses
normally, after the single overflow error. -/
theorem c4_overflow (mx : Nat) (init : List (List Char)) (c s t : List Char)
    (hs : s = init.flatten ++ c) (hhead : s = '\x7b' :: t)
    (hscan : scanGo s initScan none = ScanOut.incomplete s)
    (hmax : 100 ≤ mx) (hinit : init.flatten.length ≤ mx) (hover : mx < s.length) :
    runChunks (newParser mx) (init ++ [c])
      = some (⟨mx, []⟩, [], [ParseErr.overflow mx (String.mk (s.take 100) ++ "...")]) ∧
    (∀ (p : GoParser) (ch : List Char) (res : GoParser × List Message × List ParseErr),
      processChunk p ch = some res → res.1.buffer.length ≤ p.maxBufferSize) ∧
    (∀ (s2 t2 : List Char) (m2 : Message), s2 = '\x7b' :: t2 →
      scanGo s2 initScan none = ScanOut.complete s2 [] →
      decodeText s2 = Except.ok (some m2) → s2.length ≤ mx →
      parseMessagesRun (newParser mx) ((init ++ [c]) ++ [s2])
        = some ([m2], [ParseErr.overflow mx (String.mk (s.take 100) ++ "...")])) := by
  have hnp : newParser mx = ⟨mx, []⟩ := newParser_pos (by omega)
  have hphase : runChunks ⟨mx, []⟩ init = some (⟨mx, init.flatten⟩, [], []) := by
    have := runChunks_incomplete_phase hhead hscan init [] c
      (by simpa using hs.symm) (by simpa using hinit)
    simpa using this
  have hpcov : processChunk ⟨mx, init.flatten⟩ c
      = some (⟨mx, []⟩, [],
          [ParseErr.overflow mx (String.mk (s.take 100) ++ "...")]) := by
    have := processChunk_overflow (p := ⟨mx, init.flatten⟩) (c := c) (b := s)
      (by simpa using hs.symm) hover (by omega)
    simpa using this
  have hmain : runChunks ⟨mx, []⟩ (init ++ [c])
      = some (⟨mx, []⟩, [], [ParseErr.overflow mx (String.mk (s.take 100) ++ "...")]) := by
    rw [runChunks_append_ok [c] hphase, runChunks_one, hpcov]
    simp
  refine ⟨by rw [hnp]; exact hmain, fun p ch res h => processChunk_buffer_bound h, ?_⟩
  intro s2 t2 m2 hhead2 hscan2 hdec2 hlen2
  rw [hnp]
  have hrun : runChunks ⟨mx, []⟩ ((init ++ [c]) ++ [s2])
      = some (⟨mx, []⟩, [m2], [ParseErr.overflow mx (String.mk (s.take 100) ++ "...")]) := by
    rw [runChunks_append_ok [s2] hmain, runChunks_single_object hhead2 hscan2 hdec2 hlen2]
    simp
  exact parseMessagesRun_of_runChunks hrun

set_option maxRecDepth 4000 in
/-- Claim C4, witness. A 101-byte chunk `\x7b` followed by 100 `a`s, with bound
100, overflows once: the overflow error carries the first 100 bytes and an
ellipsis, the buffer is cleared, and the valid object
`\x7b"type":"user","message":\x7b"content":"Hi"\x7d\x7d` in the next chunk
still decodes. -/
theorem c4_overflow_witness :
    runChunks (newParser 100) [('\x7b' :: List.replicate 100 'a')]
      = some (⟨100, []⟩, [],
          [ParseErr.overflow 100 (String.mk ('\x7b' :: List.replicate 99 'a') ++ "...")]) ∧
    parseMessagesRun (newParser 100)
        [('\x7b' :: List.replicate 100 'a'),
         ("\x7b\"type\":\"user\",\"message\":\x7b\"content\":\"Hi\"\x7d\x7d").toList]
      = some ([Message.user "Hi"],
          [ParseErr.overflow 100 (String.mk ('\x7b' :: List.replicate 99 'a') ++ "...")]) := by
  have h := c4_overflow 100 [] ('\x7b' :: List.replicate 100 'a')
    ('\x7b' :: List.replicate 100 'a') (List.replicate 100 'a')
    (by simp) rfl rfl (by decide) (by simp) (by simp)
  have htake : (('\x7b' :: List.replicate 100 'a').take 100)
      = '\x7b' :: List.replicate 99 'a' := by decide
  refine ⟨?_, ?_⟩
  · have h1 := h.1
    rw [htake] at h1
    simpa using h1
  · have h3 := h.2.2 ("\x7b\"type\":\"user\",\"message\":\x7b\"content\":\"Hi\"\x7d\x7d").toList
      ("\"type\":\"user\",\"message\":\x7b\"content\":\"Hi\"\x7d\x7d").toList
      (Message.user "Hi") rfl rfl rfl (by decide)
    rw [htake] at h3
    simpa using h3

/-! ## Claim C6 -/

/-- Channel outputs of a list of raw slices that all decode to messages. -/
lemma chain_outputs {ss : List (List Char)} {ms : List Message}
    (h : List.Forall₂ (fun s m => decodeText s = Except.ok (some m)) ss ms) :
    ss.filterMap rawMsg = ms ∧ ss.filterMap rawErr = [] := by
  induction h with
  | nil => simp
  | cons hd _ ih =>
    refine ⟨?_, ?_⟩
    · simp [List.filterMap_cons, rawMsg, hd, ih.1]
    · simp [List.filterMap_cons, rawErr, hd, ih.2]

/-- An element of a concatenation is no longer than the concatenation. -/
lemma length_mem_flatten {s : List Char} {ss : List (List Char)} (h : s ∈ ss) :
    s.length ≤ ss.flatten.length := by
  induction ss with
  | nil => simp at h
  | cons x xs ih =>
    rw [List.flatten_cons, List.length_append]
    rcases List.mem_cons.mp h with h1 | h2
    · subst h1; omega
    · have := ih h2; omega

/-- Scanner-complete decodable objects, one per chunk, each decode to their
message. -/
lemma runChunks_chain {mx : Nat} {ss : List (List Char)} {ms : List Message}
    (h : List.Forall₂ (fun s m => (∃ t, s = '\x7b' :: t) ∧
        scanGo s initScan none = ScanOut.complete s [] ∧
        decodeText s = Except.ok (some m)) ss ms)
    (hlen : ∀ s ∈ ss, s.length ≤ mx) :
    runChunks ⟨mx, []⟩ ss = some (⟨mx, []⟩, ms, []) := by
  induction h with
  | nil => rfl
  | cons hd tl ih =>
    next s m ss2 ms2 =>
    obtain ⟨⟨t, ht⟩, hscan, hdec⟩ := hd
    have hex : extract s = some ([s], []) := extract_object ⟨t, ht⟩ hscan
    have hpc := processChunk_eq (p := ⟨mx, []⟩) (c := s) (by simp)
      (by simpa using hlen s (by simp)) hex
    rw [runChunks, hpc]
    dsimp only
    rw [ih (fun x hx => hlen x (by simp [hx]))]
    simp [rawMsg, rawErr, hdec]

/-- A left member of a `Forall₂` has a related right member. -/
lemma forall₂_mem_left {α β : Type} {R : α → β → Prop} {l1 : List α} {l2 : List β}
    (h : List.Forall₂ R l1 l2) {a : α} (ha : a ∈ l1) : ∃ b, R a b := by
  induction h with
  | nil => simp at ha
  | cons hd _ ih =>
    rcases List.mem_cons.mp ha with h1 | h2
    · subst h1; exact ⟨_, hd⟩
    · exact ih h2

/-- Claim C6. A structurally complete but malformed JSON object followed by
well-formed objects — in the same chunk or in later chunks — yields exactly
one decode error, carrying the offending raw text and the underlying cause;
the rest of the buffer is not discarded, and each subsequent well-formed
object still decodes to its message. -/
theorem c6_malformed_recovery (mx : Nat) (s1 t1 : List Char) (cause : String)
    (ss : List (List Char)) (ms : List Message)
    (h1h : s1 = '\x7b' :: t1)
    (h1s : scanGo s1 initScan none = ScanOut.complete s1 [])
    (h1d : decodeText s1 = Except.error cause)
    (hall : List.Forall₂ (fun s m => (∃ t, s = '\x7b' :: t) ∧
        scanGo s initScan none = ScanOut.complete s [] ∧
        decodeText s = Except.ok (some m)) ss ms)
    (hlen : (s1 ++ ss.flatten).length ≤ (newParser mx).maxBufferSize) :
    parseMessagesRun (newParser mx) [s1 ++ ss.flatten]
      = some (ms, [ParseErr.decode (String.mk s1) cause]) ∧
    parseMessagesRun (newParser mx) (s1 :: ss)
      = some (ms, [ParseErr.decode (String.mk s1) cause]) := by
  have hdecs : List.Forall₂ (fun s m => decodeText s = Except.ok (some m)) ss ms :=
    List.Forall₂.imp (fun a b h => h.2.2) hall
  have houts := chain_outputs hdecs
  have h1msg : rawMsg s1 = none := by simp [rawMsg, h1d]
  have h1err : rawErr s1 = some (ParseErr.decode (String.mk s1) cause) := by
    simp [rawErr, h1d]
  constructor
  · have hex : extract ((s1 :: ss).flatten) = some (s1 :: ss, []) := by
      apply extract_chain
      intro x hx
      rcases List.mem_cons.mp hx with h1 | h2
      · subst h1; exact ⟨⟨t1, h1h⟩, h1s⟩
      · obtain ⟨m, hm⟩ := forall₂_mem_left hall h2
        exact ⟨hm.1, hm.2.1⟩
    rw [List.flatten_cons] at hex
    have hpc := processChunk_eq (p := ⟨(newParser mx).maxBufferSize, []⟩)
      (c := s1 ++ ss.flatten) (by simp) (by simpa using hlen) hex
    have hrun : runChunks ⟨(newParser mx).maxBufferSize, []⟩ [s1 ++ ss.flatten]
        = some (⟨(newParser mx).maxBufferSize, []⟩, ms,
            [ParseErr.decode (String.mk s1) cause]) := by
      rw [runChunks_one, hpc]
      simp [List.filterMap_cons, h1msg, h1err, houts.1, houts.2]
    rw [newParser_eq mx]
    exact parseMessagesRun_of_runChunks hrun
  · have hex1 : extract s1 = some ([s1], []) := extract_object ⟨t1, h1h⟩ h1s
    have hlen1 : s1.length ≤ (newParser mx).maxBufferSize := by
      simp only [List.length_append] at hlen
      omega
    have hpc1 := processChunk_eq (p := ⟨(newParser mx).maxBufferSize, []⟩)
      (c := s1) (by simp) (by simpa using hlen1) hex1
    have hrest := @runChunks_chain ((newParser mx).maxBufferSize) ss ms hall (fun x hx => by
      have h1 : x.length ≤ ss.flatten.length := length_mem_flatten hx
      simp only [List.length_append] at hlen
      omega)
    have hrun : runChunks ⟨(newParser mx).maxBufferSize, []⟩ (s1 :: ss)
        = some (⟨(newParser mx).maxBufferSize, []⟩, ms,
            [ParseErr.decode (String.mk s1) cause]) := by
      rw [runChunks, hpc1]
      dsimp only
      rw [hrest]
      simp [List.filterMap_cons, h1msg, h1err]
    rw [newParser_eq mx]
    exact parseMessagesRun_of_runChunks hrun

/-- Claim C6, witness. `\x7b"type":"user"\x7d` is structurally complete but
malformed (no `message` field); followed by a well-formed user message, in
the same chunk and in a later chunk, the parser emits one decode error
carrying the raw text and still decodes the follower. -/
theorem c6_malformed_recovery_witness :
    parseMessagesRun (newParser 1024)
        [("\x7b\"type\":\"user\"\x7d").toList
          ++ ("\x7b\"type\":\"user\",\"message\":\x7b\"content\":\"Hi\"\x7d\x7d").toList]
      = some ([Message.user "Hi"],
          [ParseErr.decode "\x7b\"type\":\"user\"\x7d"
            "user message missing \x27message\x27 field"]) ∧
    parseMessagesRun (newParser 1024)
        [("\x7b\"type\":\"user\"\x7d").toList,
         ("\x7b\"type\":\"user\",\"message\":\x7b\"content\":\"Hi\"\x7d\x7d").toList]
      = some ([Message.user "Hi"],
          [ParseErr.decode "\x7b\"type\":\"user\"\x7d"
            "user message missing \x27message\x27 field"]) := by
  have h := c6_malformed_recovery 1024 ("\x7b\"type\":\"user\"\x7d").toList
    ("\"type\":\"user\"\x7d").toList "user message missing \x27message\x27 field"
    [("\x7b\"type\":\"user\",\"message\":\x7b\"content\":\"Hi\"\x7d\x7d").toList]
    [Message.user "Hi"] rfl rfl rfl
    (List.Forall₂.cons
      ⟨⟨("\"type\":\"user\",\"message\":\x7b\"content\":\"Hi\"\x7d\x7d").toList, rfl⟩, rfl, rfl⟩
      List.Forall₂.nil)
    (by decide)
  simpa using h

/-! ## Claims C5, C9, C10 -/

/-- Claim C5, counterexample. The result decoder does not validate
`duration_ms`, `duration_api_ms`, `is_error`, `num_turns` or `session_id`:
the object `\x7b"type":"result","subtype":"done"\x7d`, missing all of them,
decodes without any error to a `ResultMessage` with zero values — not a
decode error naming a missing field, contradicting the claim. -/
theorem c5_counterexample :
    decodeText ("\x7b\"type\":\"result\",\"subtype\":\"done\"\x7d").toList
      = Except.ok (some (Message.result "done" 0 0 false 0 "" none none none)) :=
  rfl

/-- Claim C5 (amended).  What the decoders actually validate: the result decoder
validates only `subtype` (an object with only a `subtype` decodes with every
other field silently zero-defaulted); the user decoder validates `message`
and `message.content`; the content-block decoders validate `text`,
`tool_use.id` and `tool_result.tool_use_id` respectively — each failed
validation is a decode error naming the field. -/
theorem c5_field_validation :
    (∀ raw, getField raw "subtype" = none →
      parseResultMessage raw = Except.error "result message missing \x27subtype\x27 field") ∧
    (∀ st : String, parseResultMessage [("subtype", JValue.str st)]
      = Except.ok (Message.result st 0 0 false 0 "" none none none)) ∧
    (∀ raw, getField raw "message" = none →
      parseUserMessage raw = Except.error "user message missing \x27message\x27 field") ∧
    (∀ mfields, getField mfields "content" = none →
      parseUserMessage [("message", JValue.obj mfields)]
        = Except.error "user message missing \x27content\x27 field") ∧
    (∀ block, getField block "type" = some (JValue.str "text") →
      getField block "text" = none →
      parseContentBlock block = Except.error "text block missing \x27text\x27 field") ∧
    (∀ block, getField block "type" = some (JValue.str "tool_use") →
      getField block "id" = none →
      parseContentBlock block = Except.error "tool_use block missing \x27id\x27 field") ∧
    (∀ block, getField block "type" = some (JValue.str "tool_result") →
      getField block "tool_use_id" = none →
      parseContentBlock block
        = Except.error "tool_result block missing \x27tool_use_id\x27 field") := by
  refine ⟨?_, ?_, ?_, ?_, ?_, ?_, ?_⟩
  · intro raw h
    simp [parseResultMessage, h]
  · intro st
    rfl
  · intro raw h
    simp [parseUserMessage, h]
  · intro mfields h
    have hm : getField [("message", JValue.obj mfields)] "message"
        = some (JValue.obj mfields) := rfl
    simp [parseUserMessage, hm, h]
  · intro block h1 h2
    simp [parseContentBlock, h1, h2]
  · intro block h1 h2
    simp [parseContentBlock, h1, h2]
  · intro block h1 h2
    simp [parseContentBlock, h1, h2]

/-- Claim C5, witness. The amended validation behaviour at concrete inputs. -/
theorem c5_field_validation_witness :
    parseResultMessage [] = Except.error "result message missing \x27subtype\x27 field" ∧
    parseResultMessage [("subtype", JValue.str "done")]
      = Except.ok (Message.result "done" 0 0 false 0 "" none none none) ∧
    parseUserMessage [] = Except.error "user message missing \x27message\x27 field" ∧
    parseUserMessage [("message", JValue.obj [])]
      = Except.error "user message missing \x27content\x27 field" ∧
    parseContentBlock [("type", JValue.str "text")]
      = Except.error "text block missing \x27text\x27 field" ∧
    parseContentBlock [("type", JValue.str "tool_use")]
      = Except.error "tool_use block missing \x27id\x27 field" ∧
    parseContentBlock [("type", JValue.str "tool_result")]
      = Except.error "tool_result block missing \x27tool_use_id\x27 field" :=
  ⟨c5_field_validation.1 [] rfl,
   c5_field_validation.2.1 "done",
   c5_field_validation.2.2.1 [] rfl,
   c5_field_validation.2.2.2.1 [] rfl,
   c5_field_validation.2.2.2.2.1 _ rfl rfl,
   c5_field_validation.2.2.2.2.2.1 _ rfl rfl,
   c5_field_validation.2.2.2.2.2.2 _ rfl rfl⟩

/-- Claim C9. The integer-valued result fields `duration_ms`, `duration_api_ms`
and `num_turns` are obtained from the wire decimal by truncation toward zero
— the fractional part is discarded, not rounded: the wire value `1500.9`
decodes to `1500` (and not to `1501`). -/
theorem c9_numeric_truncation :
    (∀ (raw : List (String × JValue)) (st : String) (q qa qn : JNum),
      getField raw "subtype" = some (JValue.str st) →
      getField raw "duration_ms" = some (JValue.num q) →
      getField raw "duration_api_ms" = some (JValue.num qa) →
      getField raw "num_turns" = some (JValue.num qn) →
      resultIntFields (parseResultMessage raw) = some (q.trunc, qa.trunc, qn.trunc)) ∧
    jnumber ("1500.9").toList = some (⟨15009, 1⟩, []) ∧
    JNum.trunc ⟨15009, 1⟩ = 1500 ∧
    JNum.trunc ⟨15009, 1⟩ ≠ 1501 := by
  refine ⟨?_, rfl, rfl, by decide⟩
  intro raw st q qa qn h1 h2 h3 h4
  unfold parseResultMessage
  rw [h1, h2, h3, h4]
  rfl

/-- Claim C9, witness. A concrete result message whose `duration_ms` is the
wire value `1500.9`, `duration_api_ms` is `3`, `num_turns` is `2.9`: the
decoded integers are `1500`, `3` and `2` — truncated, not rounded. -/
theorem c9_numeric_truncation_witness :
    resultIntFields (parseResultMessage [("subtype", JValue.str "done"),
        ("duration_ms", JValue.num ⟨15009, 1⟩),
        ("duration_api_ms", JValue.num ⟨3, 0⟩),
        ("num_turns", JValue.num ⟨29, 1⟩)])
      = some (1500, 3, 2) :=
  c9_numeric_truncation.1 [("subtype", JValue.str "done"),
    ("duration_ms", JValue.num ⟨15009, 1⟩),
    ("duration_api_ms", JValue.num ⟨3, 0⟩),
    ("num_turns", JValue.num ⟨29, 1⟩)] "done" ⟨15009, 1⟩ ⟨3, 0⟩ ⟨29, 1⟩ rfl rfl rfl rfl

/-- Claim C10. A JSON object of type `user` whose `message.content` is an array
of N elements is not a decode error: it decodes to a `UserMessage` whose
content is exactly the synthetic summary `"Tool results: N items"`. -/
theorem c10_user_array_content (raw mfields : List (String × JValue)) (items : List JValue)
    (h1 : getField raw "type" = some (JValue.str "user"))
    (h2 : getField raw "message" = some (JValue.obj mfields))
    (h3 : getField mfields "content" = some (JValue.arr items)) :
    parseMessageJ raw = Except.ok (some (Message.user
      ("Tool results: " ++ toString items.length ++ " items"))) := by
  simp [parseMessageJ, parseUserMessage, h1, h2, h3]
  rfl

/-- Claim C10, witness. A user message whose content is a three-element tool
result array decodes to `UserMessage "Tool results: 3 items"`, through the
full text decoder as well. -/
theorem c10_user_array_content_witness :
    parseMessageJ [("type", JValue.str "user"),
        ("message", JValue.obj [("content", JValue.arr [JValue.null, JValue.bool true,
          JValue.str "x"])])]
      = Except.ok (some (Message.user "Tool results: 3 items")) ∧
    decodeText ("\x7b\"type\":\"user\",\"message\":\x7b\"content\":[1,2,3]\x7d\x7d").toList
      = Except.ok (some (Message.user "Tool results: 3 items")) :=
  ⟨c10_user_array_content
      [("type", JValue.str "user"),
       ("message", JValue.obj [("content", JValue.arr [JValue.null, JValue.bool true,
         JValue.str "x"])])]
      [("content", JValue.arr [JValue.null, JValue.bool true, JValue.str "x"])]
      [JValue.null, JValue.bool true, JValue.str "x"] rfl rfl rfl, rfl⟩

/-! ## Claims C2, C3 -/

/-- The stderr connection error is never a process error (its `fmt.Errorf`
prefix differs). -/
lemma stderr_not_processError (out : String) : isProcessError (stderrConnErr out) = false := rfl

/-- Whatever `streamStderr` emits, it is not a process error. -/
lemma streamStderrRun_no_processError (lines : List String) :
    (streamStderrRun lines).countP isProcessError = 0 := by
  unfold streamStderrRun
  cases h : stderrAccum lines [] 0 with
  | mk acc eof =>
    cases eof with
    | false => simp
    | true =>
      split
      · simp [List.countP_cons, stderr_not_processError]
      · simp

/-- The process error message carries its exit code (decimal rendering). -/
lemma processErrMsg_carries_code (code : Int) :
    processErrMsg code = "process error: CLI process failed with exit code " ++ toString code :=
  rfl

/-- Claim C2, counterexample. In the run where the child exits with status 3
and the accumulated stderr is `boom`, the transport error channel carries two
errors — the stderr connection error and the process error — and no single
emitted error carries both the exit code and the stderr text: the process
error built by `waitForProcess` does not mention stderr at all (the two
travel separately). -/
theorem c2_counterexample :
    transportErrRun ["boom"] true (WaitOutcome.exited 3)
      = [stderrConnErr "boom", processErrMsg 3] ∧
    ¬(containsSeq "exit code 3".toList (stderrConnErr "boom").toList = true ∧
      containsSeq "boom".toList (stderrConnErr "boom").toList = true) ∧
    ¬(containsSeq "exit code 3".toList (processErrMsg 3).toList = true ∧
      containsSeq "boom".toList (processErrMsg 3).toList = true) :=
  ⟨rfl, by decide, by decide⟩

/-- Claim C2 (amended: the process error carries the exit code; the accumulated
stderr is delivered separately as a connection error by the stderr reader).
For every run in which the child exits naturally with a non-zero status,
exactly one process error appears on the transport error channel before it
closes (the channel is closed by `waitForProcess` after its emissions), and
that error is the formatted message carrying the exit code; a zero exit
status emits no process error at all. -/
theorem c2_process_error (lines : List String) (code : Int) :
    (code ≠ 0 →
      waitForProcessRun true (WaitOutcome.exited code) = [processErrMsg code] ∧
      isProcessError (processErrMsg code) = true ∧
      (transportErrRun lines true (WaitOutcome.exited code)).countP isProcessError = 1) ∧
    (code = 0 →
      waitForProcessRun true (WaitOutcome.exited code) = [] ∧
      (transportErrRun lines true (WaitOutcome.exited code)).countP isProcessError = 0) := by
  constructor
  · intro h
    have hw : waitForProcessRun true (WaitOutcome.exited code) = [processErrMsg code] := by
      simp [waitForProcessRun, h]
    refine ⟨hw, rfl, ?_⟩
    unfold transportErrRun
    rw [List.countP_append, hw, streamStderrRun_no_processError]
    simp [isProcessError]
    rfl
  · intro h
    have hw : waitForProcessRun true (WaitOutcome.exited code) = [] := by
      simp [waitForProcessRun, h]
    refine ⟨hw, ?_⟩
    unfold transportErrRun
    rw [List.countP_append, hw, streamStderrRun_no_processError]
    rfl

/-- Claim C2, witness. Exit status 3 with stderr `boom`: exactly one process
error, carrying the code; exit status 0: none. -/
theorem c2_process_error_witness :
    (waitForProcessRun true (WaitOutcome.exited 3) = [processErrMsg 3] ∧
      isProcessError (processErrMsg 3) = true ∧
      (transportErrRun ["boom"] true (WaitOutcome.exited 3)).countP isProcessError = 1) ∧
    (waitForProcessRun true (WaitOutcome.exited 0) = [] ∧
      (transportErrRun ["boom"] true (WaitOutcome.exited 0)).countP isProcessError = 0) :=
  ⟨(c2_process_error ["boom"] 3).1 (by decide), (c2_process_error ["boom"] 0).2 rfl⟩

/-- A run whose accumulation loop ends via the truncation `break` emits
nothing. -/
lemma streamStderrRun_break {lines : List String} {acc : List String}
    (h : stderrAccum lines [] 0 = (acc, false)) : streamStderrRun lines = [] := by
  unfold streamStderrRun
  rw [h]

/-- A run whose accumulation loop ends in the `!scanner.Scan()` branch with a
nonempty accumulator emits the joined lines as one connection error. -/
lemma streamStderrRun_emit {lines acc : List String}
    (h : stderrAccum lines [] 0 = (acc, true)) (hne : acc.length > 0) :
    streamStderrRun lines = [stderrConnErr (String.intercalate "\n" acc)] := by
  unfold streamStderrRun
  rw [h]
  show (if acc.length > 0 then [stderrConnErr (String.intercalate "\n" acc)] else []) = _
  rw [if_pos hne]

/-- One accumulation step: a line under both the scanner token cap and the
stderr cap is appended and counted. -/
lemma stderrAccum_cons_fit {line : String} {rest acc : List String} {total : Nat}
    (h1 : ¬ scanTokenCap ≤ line.length)
    (h2 : ¬ maxStderrSize < total + line.length) :
    stderrAccum (line :: rest) acc total
      = stderrAccum rest (acc ++ [line]) (total + line.length) := by
  rw [stderrAccum, if_neg h1, if_neg h2]

/-- A line of `scanTokenCap` bytes or more ends the loop through the
`!scanner.Scan()` branch, the rest of the stream unread. -/
lemma stderrAccum_cons_scanFail {line : String} {rest acc : List String} {total : Nat}
    (h1 : scanTokenCap ≤ line.length) :
    stderrAccum (line :: rest) acc total = (acc, true) := by
  rw [stderrAccum, if_pos h1]

/-- A scannable line that would push the total past the stderr cap appends
the truncation marker and ends the loop through the `break`. -/
lemma stderrAccum_cons_over {line : String} {rest acc : List String} {total : Nat}
    (h1 : ¬ scanTokenCap ≤ line.length)
    (h2 : maxStderrSize < total + line.length) :
    stderrAccum (line :: rest) acc total = (acc ++ [truncMarker total], false) := by
  rw [stderrAccum, if_neg h1, if_pos h2]

/-- A run of `n` identical scannable lines that all fit under the stderr cap
is fully accumulated. -/
lemma stderrAccum_replicate_fit {line : String} {L : Nat} (hL : line.length = L)
    (hscan : L < scanTokenCap) :
    ∀ (n : Nat) (rest acc : List String) (total : Nat),
      total + n * L ≤ maxStderrSize →
      stderrAccum (List.replicate n line ++ rest) acc total
        = stderrAccum rest (acc ++ List.replicate n line) (total + n * L) := by
  intro n
  induction n with
  | zero => intro rest acc total _; simp
  | succ n ih =>
    intro rest acc total hfit
    have hmul : (n + 1) * L = n * L + L := by ring
    rw [hmul] at hfit ⊢
    rw [List.replicate_succ, List.cons_append]
    rw [@stderrAccum_cons_fit line (List.replicate n line ++ rest) acc total
      (by rw [hL]; omega) (by rw [hL]; omega)]
    rw [hL]
    have step := ih rest (acc ++ [line]) (total + L) (by omega)
    rw [step]
    have hlist : (acc ++ [line]) ++ List.replicate n line
        = acc ++ line :: List.replicate n line := by
      simp
    have htot : total + L + n * L = total + (n * L + L) := by omega
    rw [hlist, htot]

/-- Claim C3. The code drops truncated stderr on streams of scannable lines
whose total crosses the 10 MiB cap: with a first line `boom` and 161 further
lines of 65535 bytes each (every line under the scanner token cap of 64 KiB,
so each is returned by `scanner.Scan()`), the first 160 long lines are
accumulated (total 10485604 bytes), the 161st would cross the cap, so the
loop appends the truncation marker and `break`s — and the function returns
without emitting *anything* on the error channel, although stderr text was
accumulated; the claim (and the spec) say the accumulated text is emitted as
a single connection error once the stream ends.  That is what happens on
every stream the loop leaves through the `!scanner.Scan()` branch: at end of
stream (third conjunct), and also when a single over-long line (here
10485757 bytes, over the 64 KiB token cap) makes the scan fail with
`ErrTooLong` — there the lines read so far *are* emitted (fourth
conjunct). -/
theorem c3_truncation_drops_stderr :
    stderrAccum ("boom" :: List.replicate 161 (String.mk (List.replicate 65535 'e'))) [] 0
      = ("boom" :: List.replicate 160 (String.mk (List.replicate 65535 'e'))
          ++ [truncMarker 10485604], false) ∧
    streamStderrRun ("boom" :: List.replicate 161 (String.mk (List.replicate 65535 'e')))
      = [] ∧
    streamStderrRun ["boom"] = [stderrConnErr "boom"] ∧
    streamStderrRun ["boom", String.mk (List.replicate 10485757 'e')]
      = [stderrConnErr "boom"] := by
  have hBL : (String.mk (List.replicate 65535 'e')).length = 65535 :=
    (rfl : (String.mk (List.replicate 65535 'e')).length
        = (List.replicate 65535 'e').length).trans (List.length_replicate _ _)
  have hbig : (String.mk (List.replicate 10485757 'e')).length = 10485757 :=
    (rfl : (String.mk (List.replicate 10485757 'e')).length
        = (List.replicate 10485757 'e').length).trans (List.length_replicate _ _)
  have h161 : List.replicate 161 (String.mk (List.replicate 65535 'e'))
      = List.replicate 160 (String.mk (List.replicate 65535 'e'))
        ++ [String.mk (List.replicate 65535 'e')] := by
    rw [show (161 : Nat) = 160 + 1 from rfl, List.replicate_succ']
  have hrep := stderrAccum_replicate_fit hBL (by decide) 160
      [String.mk (List.replicate 65535 'e')] ([] ++ ["boom"]) (0 + "boom".length)
      (by decide)
  have hacc : stderrAccum
      ("boom" :: List.replicate 161 (String.mk (List.replicate 65535 'e'))) [] 0
      = ("boom" :: List.replicate 160 (String.mk (List.replicate 65535 'e'))
          ++ [truncMarker 10485604], false) := by
    rw [@stderrAccum_cons_fit "boom"
        (List.replicate 161 (String.mk (List.replicate 65535 'e'))) [] 0
        (by decide) (by decide),
      h161, hrep,
      @stderrAccum_cons_over (String.mk (List.replicate 65535 'e')) []
        (([] ++ ["boom"]) ++ List.replicate 160 (String.mk (List.replicate 65535 'e')))
        ((0 + "boom".length) + 160 * 65535)
        (by rw [hBL]; decide) (by rw [hBL]; decide)]
    rfl
  refine ⟨hacc, streamStderrRun_break hacc, rfl, ?_⟩
  have hacc2 : stderrAccum ["boom", String.mk (List.replicate 10485757 'e')] [] 0
      = (["boom"], true) := by
    rw [@stderrAccum_cons_fit "boom" [String.mk (List.replicate 10485757 'e')] [] 0
        (by decide) (by decide),
      @stderrAccum_cons_scanFail (String.mk (List.replicate 10485757 'e')) []
        ([] ++ ["boom"]) (0 + "boom".length) (by rw [hbig]; decide)]
    rfl
  exact (streamStderrRun_emit hacc2 (by decide)).trans (by rfl)

/-! ## Claims C7, C8 -/

/-- If the `mergeErrors` loop exits (closing the public error channel), then
either cancellation fired or each still-open source delivered its closure
during the schedule. -/
lemma mergeErrorsRun_some_then : ∀ (evs : List MergeEv) (t p : Bool),
    (mergeErrorsRun t p evs).isSome →
    MergeEv.cancel ∈ evs ∨
      ((t = false ∨ MergeEv.transportClosed ∈ evs) ∧
       (p = false ∨ MergeEv.parseClosed ∈ evs)) := by
  intro evs
  induction evs with
  | nil =>
    intro t p h
    cases t <;> cases p <;> simp [mergeErrorsRun] at h <;> simp
  | cons ev evs ih =>
    intro t p h
    by_cases hb : t = false ∧ p = false
    · right
      exact ⟨Or.inl hb.1, Or.inl hb.2⟩
    · have hrun : mergeErrorsRun t p (ev :: evs)
          = match ev with
            | MergeEv.cancel => some []
            | MergeEv.transportErr e =>
              (match mergeErrorsRun t p evs with
               | some out => some (e :: out)
               | none => none)
            | MergeEv.transportClosed => mergeErrorsRun false p evs
            | MergeEv.parseErr e =>
              (match mergeErrorsRun t p evs with
               | some out => some (e :: out)
               | none => none)
            | MergeEv.parseClosed => mergeErrorsRun t false evs := by
        cases t <;> cases p
        · exact absurd ⟨rfl, rfl⟩ hb
        all_goals cases ev <;> rfl
      rw [hrun] at h
      cases ev with
      | cancel => left; simp
      | transportErr e =>
        have h2 : (mergeErrorsRun t p evs).isSome := by
          cases hx : mergeErrorsRun t p evs <;> rw [hx] at h <;> simp_all
        rcases ih t p h2 with h3 | ⟨h4, h5⟩
        · left; simp [h3]
        · right
          refine ⟨?_, ?_⟩
          · rcases h4 with h4 | h4
            · exact Or.inl h4
            · exact Or.inr (by simp [h4])
          · rcases h5 with h5 | h5
            · exact Or.inl h5
            · exact Or.inr (by simp [h5])
      | parseErr e =>
        have h2 : (mergeErrorsRun t p evs).isSome := by
          cases hx : mergeErrorsRun t p evs <;> rw [hx] at h <;> simp_all
        rcases ih t p h2 with h3 | ⟨h4, h5⟩
        · left; simp [h3]
        · right
          refine ⟨?_, ?_⟩
          · rcases h4 with h4 | h4
            · exact Or.inl h4
            · exact Or.inr (by simp [h4])
          · rcases h5 with h5 | h5
            · exact Or.inl h5
            · exact Or.inr (by simp [h5])
      | transportClosed =>
        rcases ih false p h with h3 | ⟨_, h5⟩
        · left; simp [h3]
        · right
          refine ⟨Or.inr (by simp), ?_⟩
          rcases h5 with h5 | h5
          · exact Or.inl h5
          · exact Or.inr (by simp [h5])
      | parseClosed =>
        rcases ih t false h with h3 | ⟨h4, _⟩
        · left; simp [h3]
        · right
          refine ⟨?_, Or.inr (by simp)⟩
          rcases h4 with h4 | h4
          · exact Or.inl h4
          · exact Or.inr (by simp [h4])

/-- Conversely, once each open source has its closure in the schedule, the
loop does exit. -/
lemma mergeErrorsRun_some_of : ∀ (evs : List MergeEv) (t p : Bool),
    (t = false ∨ MergeEv.transportClosed ∈ evs) →
    (p = false ∨ MergeEv.parseClosed ∈ evs) →
    (mergeErrorsRun t p evs).isSome := by
  intro evs
  induction evs with
  | nil =>
    intro t p ht hp
    have ht2 : t = false := by rcases ht with h | h; exact h; simp at h
    have hp2 : p = false := by rcases hp with h | h; exact h; simp at h
    subst ht2; subst hp2
    simp [mergeErrorsRun]
  | cons ev evs ih =>
    intro t p ht hp
    by_cases hb : t = false ∧ p = false
    · obtain ⟨h1, h2⟩ := hb
      subst h1; subst h2
      simp [mergeErrorsRun]
    · have hrun : mergeErrorsRun t p (ev :: evs)
          = match ev with
            | MergeEv.cancel => some []
            | MergeEv.transportErr e =>
              (match mergeErrorsRun t p evs with
               | some out => some (e :: out)
               | none => none)
            | MergeEv.transportClosed => mergeErrorsRun false p evs
            | MergeEv.parseErr e =>
              (match mergeErrorsRun t p evs with
               | some out => some (e :: out)
               | none => none)
            | MergeEv.parseClosed => mergeErrorsRun t false evs := by
        cases t <;> cases p
        · exact absurd ⟨rfl, rfl⟩ hb
        all_goals cases ev <;> rfl
      rw [hrun]
      cases ev with
      | cancel => simp
      | transportErr e =>
        have ht2 : t = false ∨ MergeEv.transportClosed ∈ evs := by
          rcases ht with h | h
          · exact Or.inl h
          · right; simpa using h
        have hp2 : p = false ∨ MergeEv.parseClosed ∈ evs := by
          rcases hp with h | h
          · exact Or.inl h
          · right; simpa using h
        have := ih t p ht2 hp2
        cases hx : mergeErrorsRun t p evs <;> rw [hx] at this <;> simp_all
      | parseErr e =>
        have ht2 : t = false ∨ MergeEv.transportClosed ∈ evs := by
          rcases ht with h | h
          · exact Or.inl h
          · right; simpa using h
        have hp2 : p = false ∨ MergeEv.parseClosed ∈ evs := by
          rcases hp with h | h
          · exact Or.inl h
          · right; simpa using h
        have := ih t p ht2 hp2
        cases hx : mergeErrorsRun t p evs <;> rw [hx] at this <;> simp_all
      | transportClosed =>
        apply ih false p (Or.inl rfl)
        rcases hp with h | h
        · exact Or.inl h
        · right
          rcases List.mem_cons.mp h with h2 | h2
          · cases h2
          · exact h2
      | parseClosed =>
        apply ih t false _ (Or.inl rfl)
        rcases ht with h | h
        · exact Or.inl h
        · right
          rcases List.mem_cons.mp h with h2 | h2
          · cases h2
          · exact h2

/-- Claim C7. Starting with both upstream error sources open, the `mergeErrors`
loop exits — and therefore the public error channel closes — exactly when
cancellation fires or both sources have closed: it is never closed while
either source is still open without cancellation, and it does close once both
have closed. -/
theorem c7_fanin_close (evs : List MergeEv) :
    ((mergeErrorsRun true true evs).isSome →
      MergeEv.cancel ∈ evs ∨
        (MergeEv.transportClosed ∈ evs ∧ MergeEv.parseClosed ∈ evs)) ∧
    (MergeEv.transportClosed ∈ evs → MergeEv.parseClosed ∈ evs →
      (mergeErrorsRun true true evs).isSome) := by
  constructor
  · intro h
    rcases mergeErrorsRun_some_then evs true true h with h1 | ⟨h2, h3⟩
    · exact Or.inl h1
    · rcases h2 with h2 | h2
      · simp at h2
      · rcases h3 with h3 | h3
        · simp at h3
        · exact Or.inr ⟨h2, h3⟩
  · intro h1 h2
    exact mergeErrorsRun_some_of evs true true (Or.inr h1) (Or.inr h2)

/-- Claim C7, witness. A schedule that forwards one transport error and then
sees both sources close makes the loop exit, and the closure of both sources
is indeed in that schedule. -/
theorem c7_fanin_close_witness :
    (mergeErrorsRun true true [MergeEv.transportErr "x", MergeEv.transportClosed,
        MergeEv.parseClosed]).isSome ∧
    (MergeEv.cancel ∈ [MergeEv.transportErr "x", MergeEv.transportClosed,
        MergeEv.parseClosed] ∨
      (MergeEv.transportClosed ∈ [MergeEv.transportErr "x", MergeEv.transportClosed,
        MergeEv.parseClosed] ∧
       MergeEv.parseClosed ∈ [MergeEv.transportErr "x", MergeEv.transportClosed,
        MergeEv.parseClosed])) :=
  ⟨(c7_fanin_close [MergeEv.transportErr "x", MergeEv.transportClosed,
      MergeEv.parseClosed]).2 (by decide) (by decide),
   (c7_fanin_close [MergeEv.transportErr "x", MergeEv.transportClosed,
      MergeEv.parseClosed]).1
     ((c7_fanin_close [MergeEv.transportErr "x", MergeEv.transportClosed,
        MergeEv.parseClosed]).2 (by decide) (by decide))⟩

/-- Claim C8. `Close` is idempotent and never double-emits: the first call (on
an open stream) returns the transport close error, if any, and sets the
closed flag; every later call is a no-op returning success (`nil`), not the
error again; and after any call `IsClosed` reports `true`.  (The model is the
serialised execution enforced by `closeMutex`; being a total function, it
also cannot panic.) -/
theorem c8_close_idempotent (tcErr tcErr2 : Option String) :
    qsClose false tcErr = (true, tcErr) ∧
    qsClose (qsClose false tcErr).1 tcErr2 = (true, none) ∧
    (∀ (b : Bool) (e : Option String), (qsClose b e).1 = true) ∧
    qsIsClosed (qsClose false tcErr).1 = true ∧
    qsIsClosed (qsClose (qsClose false tcErr).1 tcErr2).1 = true := by
  refine ⟨rfl, rfl, ?_, rfl, rfl⟩
  intro b e
  cases b <;> rfl

end ClaudeSDK
